import Mathlib

/-! SmartCalc: the expression pipeline of `src/begginer/SmartCalc.go`.

A shallow embedding of the calculator's core (operator stack, sign runs,
validation, shunting-yard conversion, postfix evaluation) and the properties
of it that the specification states.

Modelling conventions.

* A Go `string` is a Lean `String` (a valid UTF-8 text); `len(s)` is the number
  of bytes of its UTF-8 encoding, `range s` walks its characters.
* A Go `int` is an `Int` kept in the 64-bit range by `wrapInt`.
* A `Stack[T]` is a `List T` whose head is the last element of the Go slice.
* A run that stops without returning (a runtime panic, `log.Fatal`) is the
  `Except.error` side of `Except Abort _`; Go's `error` results are values on
  the `Except.ok` side.
* What lives in Go's standard library and is not part of the repository
  (`unicode.IsLetter`, `unicode.IsNumber`, `math.Pow`) is the parameter `Lib`.
-/

namespace SmartCalc

/-! ## Runtime -/

/-- The ways a run stops without returning to its caller. -/
inductive Abort where
  /-- Index out of range: `Stack.pop` on an empty stack. -/
  | indexOutOfRange
  /-- Nil pointer dereference: `*stack.last()` on an empty stack. -/
  | nilDereference
  /-- Integer divide by zero. -/
  | divideByZero
  /-- The call of `log.Fatal` in `getNumber`. -/
  | fatal
  deriving DecidableEq, Repr

/-- Go library functions the calculator calls whose tables are not part of the
repository. On ASCII their values are fixed by the Unicode standard. -/
structure Lib where
  /-- Go's `unicode.IsLetter`. -/
  unicodeIsLetter : Char → Bool
  /-- Go's `unicode.IsNumber`. -/
  unicodeIsNumber : Char → Bool
  /-- Go's `int(math.Pow(float64(a), float64(b)))`. -/
  mathPow : Int → Int → Int
  /-- The ASCII letters are exactly `A`-`Z` and `a`-`z`. -/
  letter_ascii : ∀ c : Char, c.toNat < 128 → unicodeIsLetter c = c.isAlpha
  /-- The ASCII numbers are exactly `0`-`9`. -/
  number_ascii : ∀ c : Char, c.toNat < 128 → unicodeIsNumber c = c.isDigit

/-- Smallest value of a 64-bit `int`. -/
def minInt : Int := -9223372036854775808

/-- Largest value of a 64-bit `int`. -/
def maxInt : Int := 9223372036854775807

/-- Two's-complement wrap-around of 64-bit `int` arithmetic. -/
def wrapInt (n : Int) : Int := (n + 9223372036854775808) % 18446744073709551616 - 9223372036854775808

/-- Number of bytes of the UTF-8 encoding of a sequence of characters. -/
def byteLen (cs : List Char) : Nat := (cs.map Char.utf8Size).sum

/-- Go's `len(s)` on a string. -/
def len (s : String) : Nat := byteLen s.data

/-- Go's `unicode.IsSpace`: the characters with the White_Space property. -/
def isSpace (c : Char) : Bool :=
  let n := c.toNat
  (9 ≤ n && n ≤ 13) || n == 32 || n == 133 || n == 160 || n == 5760 ||
  (8192 ≤ n && n ≤ 8202) || n == 8232 || n == 8233 || n == 8239 || n == 8287 || n == 12288

/-- Go's `strings.ContainsAny`. -/
def containsAny (s : String) (chars : String) : Bool :=
  s.data.any fun c => chars.data.contains c

/-- Go's `strings.Contains` for a one-character substring. -/
def containsChar (s : String) (c : Char) : Bool := s.data.contains c

/-- Loop of `strings.Fields`: `cur` holds the characters of the field being
read, last character first. -/
def fieldsLoop : List Char → List Char → List String
  | [], cur => if cur = [] then [] else [String.mk cur.reverse]
  | c :: cs, cur =>
    if isSpace c then
      if cur = [] then fieldsLoop cs [] else String.mk cur.reverse :: fieldsLoop cs []
    else fieldsLoop cs (c :: cur)

/-- Go's `strings.Fields`: the maximal runs of non-space characters. -/
def fields (s : String) : List String := fieldsLoop s.data []

/-- Go's `strings.TrimSpace`. -/
def trimSpace (s : String) : String :=
  String.mk ((s.data.dropWhile isSpace).reverse.dropWhile isSpace).reverse

/-- Go's `strings.Replace(s, string(old), new, -1)` for a one-character `old`. -/
def replaceChar (s : String) (old : Char) (new : String) : String :=
  String.mk (s.data.flatMap fun c => if c = old then new.data else [c])

/-! ## Stack -/

/-- `type Stack[T any] []T`; the head of the list is the top of the stack. -/
abbrev Stack (α : Type) := List α

/-- `Stack.add`. -/
def Stack.add {α : Type} (stack : Stack α) (s : α) : Stack α := s :: stack

/-- `Stack.pop`: indexing an empty slice at `-1` panics. -/
def Stack.pop {α : Type} : Stack α → Except Abort (α × Stack α)
  | [] => .error .indexOutOfRange
  | lastElement :: rest => .ok (lastElement, rest)

/-- `Stack.last`: `nil` on an empty stack. -/
def Stack.last {α : Type} : Stack α → Option α
  | [] => none
  | lastElement :: _ => some lastElement

/-! ## Operator -/

/-- `type Operator string`. -/
abbrev Operator := String

/-- `Operator.isOperator`. -/
def Operator.isOperator (operator : Operator) : Bool :=
  if len operator = 1 ∧ containsAny operator "*/()^" = true then true
  else
    let count := operator.data.countP fun r => r == '-' || r == '+'
    decide (len operator = count)

/-- `Operator.convertAdmissibleOperator`: the operator after the call. -/
def Operator.convertAdmissibleOperator (operator : Operator) : Operator :=
  if !Operator.isOperator operator || !containsAny operator "+-" then operator
  else if len operator % 2 = 0 ∨ containsChar operator '+' = true then "+"
  else "-"

/-- `Operator.getPriority`. -/
def Operator.getPriority (operator : Operator) : Int :=
  if operator = "+" ∨ operator = "-" then 1
  else if operator = "*" ∨ operator = "/" then 2
  else if operator = "^" then 3
  else 0

/-! ## Numbers -/

/-- `isNumber`. -/
def isNumber (L : Lib) (s : String) : Bool :=
  match s.data with
  | [] => false
  | c :: cs =>
    let body := if c = '+' ∨ c = '-' then cs else c :: cs
    let count := body.countP L.unicodeIsNumber
    decide (byteLen body = count) && decide (count ≠ 0)

/-- Value of a run of decimal digits; `none` when the run is empty or holds
another character. -/
def parseDigits (ds : List Char) : Option Nat :=
  if ds = [] ∨ ds.all Char.isDigit = false then none
  else some (ds.foldl (fun n c => 10 * n + (c.toNat - 48)) 0)

/-- Go's `strconv.Atoi`: an optional sign and decimal digits, in the range of
`int`; `none` stands for its error. -/
def atoi (s : String) : Option Int :=
  match s.data with
  | [] => none
  | c :: cs =>
    if c = '+' then
      (parseDigits cs).bind fun n => if (n : Int) ≤ maxInt then some (n : Int) else none
    else if c = '-' then
      (parseDigits cs).bind fun n => if minInt ≤ -(n : Int) then some (-(n : Int)) else none
    else
      (parseDigits (c :: cs)).bind fun n => if (n : Int) ≤ maxInt then some (n : Int) else none

/-- `getNumber`: `log.Fatal` when `strconv.Atoi` fails. -/
def getNumber (s : String) : Except Abort Int :=
  match atoi s with
  | some number => .ok number
  | none => .error .fatal

/-! ## Variables -/

/-- `type Variables map[string]int`. -/
abbrev Variables := String → Option Int

/-- `Variables.getVariable`. -/
def Variables.getVariable (vars : Variables) (name : String) : Int × Bool :=
  match vars name with
  | some v => (v, true)
  | none => (0, false)

/-- `Variables.isValidIdentifier` (it does not read the map). -/
def Variables.isValidIdentifier (L : Lib) (identifier : String) : Bool :=
  if len identifier = 0 then false
  else
    let count := identifier.data.countP L.unicodeIsLetter
    decide (count = len identifier)

/-- The map after the Go assignment `(*variables)[name] = value`. -/
def Variables.insert (vars : Variables) (name : String) (value : Int) : Variables :=
  fun k => if k = name then some value else vars k

/-- `Variables.setVariable`: the map after the call and the error returned;
`assignment[0]` and `assignment[1]` panic when the slice is too short. -/
def Variables.setVariable (L : Lib) (vars : Variables) (assignment : List String) :
    Except Abort (Variables × Option String) :=
  match assignment with
  | [] => .error .indexOutOfRange
  | first :: rest =>
    let name := trimSpace first
    if !Variables.isValidIdentifier L name then .ok (vars, some "Invalid identifier")
    else
      match rest with
      | [] => .error .indexOutOfRange
      | second :: _ =>
        let rawValue := trimSpace second
        if !Variables.isValidIdentifier L rawValue && !isNumber L rawValue then
          .ok (vars, some "Invalid assignment")
        else if (Variables.getVariable vars rawValue).2 && !isNumber L rawValue then
          .ok (Variables.insert vars name (Variables.getVariable vars rawValue).1, none)
        else if isNumber L rawValue then
          match getNumber rawValue with
          | .error a => .error a
          | .ok value => .ok (Variables.insert vars name value, none)
        else .ok (vars, some "Unknown variable")

/-! ## Postfix -/

/-- An element of `type Postfix []any`: an `Operator` popped from the operator
stack or a `string` operand. -/
inductive Element where
  | operator (op : Operator)
  | operand (s : String)
  deriving DecidableEq, Repr

/-- `type Postfix []any`, in output order. -/
abbrev Postfix := List Element

/-- `Postfix.append`: the parentheses are dropped. -/
def Postfix.append (p : Postfix) (element : Element) : Postfix :=
  match element with
  | .operator e => if e = "(" ∨ e = ")" then p else p ++ [element]
  | .operand _ => p ++ [element]

/-- The loop `for operators.last() != nil && cond(*operators.last()) { postfix.append(operators.pop()) }`. -/
def popWhile (cond : Operator → Bool) : Stack Operator → Postfix → Stack Operator × Postfix
  | [], p => ([], p)
  | top :: rest, p =>
    if cond top then popWhile cond rest (Postfix.append p (.operator top))
    else (top :: rest, p)

/-- Body of the loop of `Postfix.convert` for one element of the input. -/
def convertElement (st : Stack Operator × Postfix) (element : String) :
    Except Abort (Stack Operator × Postfix) :=
  let operators := st.1
  let p := st.2
  if Operator.isOperator element then
    if operators.length = 0 ∨ Stack.last operators = some "(" then
      .ok (Stack.add operators element, p)
    else if element = "(" then
      .ok (Stack.add operators element, p)
    else if element = ")" then
      let r := popWhile (fun top => top != "(") operators p
      match Stack.pop r.1 with
      | .error a => .error a
      | .ok (_, rest) => .ok (rest, r.2)
    else
      match Stack.last operators with
      | none => .error .nilDereference
      | some top =>
        if Operator.getPriority element > Operator.getPriority top then
          .ok (Stack.add operators element, p)
        else if Operator.getPriority element ≤ Operator.getPriority top then
          let r := popWhile
            (fun t => decide (Operator.getPriority t ≥ Operator.getPriority element) || t != "(")
            operators p
          .ok (Stack.add r.1 element, r.2)
        else .ok (operators, Postfix.append p (.operand element))
  else .ok (operators, Postfix.append p (.operand element))

/-- The loop of `Postfix.convert` over the elements of the input. -/
def convertLoop : List String → Stack Operator × Postfix → Except Abort (Stack Operator × Postfix)
  | [], st => .ok st
  | element :: rest, st =>
    match convertElement st element with
    | .error a => .error a
    | .ok st1 => convertLoop rest st1

/-- `type Infix string`. -/
abbrev Infix := String

/-- `Postfix.convert`: the receiver after the call. -/
def Postfix.convert (p : Postfix) (inf : Infix) : Except Abort Postfix :=
  match convertLoop (fields inf) ([], p) with
  | .error a => .error a
  | .ok st => .ok (popWhile (fun _ => true) st.1 st.2).2

/-! ## Infix -/

/-- Loop of `Infix.validBrackets`, from the counts reached so far. -/
def validBracketsLoop : List Char → Nat → Nat → Bool
  | [], leftBrackets, rightBrackets => decide (leftBrackets = rightBrackets)
  | r :: rest, leftBrackets, rightBrackets =>
    if r = '(' then validBracketsLoop rest (leftBrackets + 1) rightBrackets
    else
      let rightBrackets1 := if r = ')' then rightBrackets + 1 else rightBrackets
      if rightBrackets1 > leftBrackets then false
      else validBracketsLoop rest leftBrackets rightBrackets1

/-- `Infix.validBrackets`. -/
def Infix.validBrackets (inf : Infix) : Bool := validBracketsLoop inf.data 0 0

/-- Loop of `Infix.validOperators`, from the last character read. -/
def validOperatorsLoop : List Char → Char → Bool
  | [], _ => true
  | r :: rest, lastOperator =>
    if r = lastOperator ∧ (lastOperator = '*' ∨ lastOperator = '/' ∨ lastOperator = '^') then false
    else validOperatorsLoop rest r

/-- `Infix.validOperators`; `lastOperator` starts as the zero rune. -/
def Infix.validOperators (inf : Infix) : Bool := validOperatorsLoop inf.data (Char.ofNat 0)

/-- `Infix.validate`: `none` is Go's `nil` error. -/
def Infix.validate (inf : Infix) : Option String :=
  if !Infix.validBrackets inf || !Infix.validOperators inf then some "Invalid Expression"
  else none

/-- `Infix.isSpaceLessForm`. -/
def Infix.isSpaceLessForm (L : Lib) (inf : Infix) : Bool :=
  if isNumber L inf then false else !containsChar inf ' '

/-- Loop of `Infix.addSpaces` on the space-less form: `i` is the byte offset of
the character read, `lastElement` the character before it. -/
def addSpacesLoop (L : Lib) : List Char → Nat → Char → List Char
  | [], _, _ => []
  | r :: rest, i, lastElement =>
    if (isNumber L (String.singleton r) && (isNumber L (String.singleton lastElement) || decide (i = 0))) ||
        (containsAny (String.singleton lastElement) "+-/*^" && containsAny (String.singleton r) "+-/*^") ||
        (L.unicodeIsLetter r && (L.unicodeIsLetter lastElement || decide (i = 0))) then
      r :: addSpacesLoop L rest (i + r.utf8Size) r
    else
      ' ' :: r :: addSpacesLoop L rest (i + r.utf8Size) r

/-- `Infix.addSpaces`: the receiver after the call. -/
def Infix.addSpaces (L : Lib) (inf : Infix) : Infix :=
  let trimmed := trimSpace inf
  if !Infix.isSpaceLessForm L trimmed then
    replaceChar (replaceChar trimmed '(' "( ") ')' " )"
  else
    String.mk (addSpacesLoop L trimmed.data 0 (Char.ofNat 0))

/-! ## Evaluation -/

/-- The loop of `calculate` from the evaluation stack `result`, and the final
`return *result.last(), nil`. The pair returned is Go's `(int, error)`. -/
def calculateLoop (L : Lib) (vars : Variables) : List Element → Stack Int → Except Abort (Int × Option String)
  | [], result =>
    match Stack.last result with
    | none => .error .nilDereference
    | some v => .ok (v, none)
  | .operator op :: rest, result =>
    let operator := Operator.convertAdmissibleOperator op
    match Stack.pop result with
    | .error e => .error e
    | .ok (b, result1) =>
      match Stack.pop result1 with
      | .error e => .error e
      | .ok (a, result2) =>
        if operator = "+" then calculateLoop L vars rest (Stack.add result2 (wrapInt (a + b)))
        else if operator = "-" then calculateLoop L vars rest (Stack.add result2 (wrapInt (a - b)))
        else if operator = "*" then calculateLoop L vars rest (Stack.add result2 (wrapInt (a * b)))
        else if operator = "/" then
          if b = 0 then .error .divideByZero
          else calculateLoop L vars rest (Stack.add result2 (wrapInt (Int.tdiv a b)))
        else if operator = "^" then calculateLoop L vars rest (Stack.add result2 (L.mathPow a b))
        else calculateLoop L vars rest result2
  | .operand s :: rest, result =>
    if isNumber L s then
      match getNumber s with
      | .error e => .error e
      | .ok n => calculateLoop L vars rest (Stack.add result n)
    else if !Variables.isValidIdentifier L s then .ok (0, some "Invalid identifier")
    else if !(Variables.getVariable vars s).2 then .ok (0, some "Unknown variable")
    else calculateLoop L vars rest (Stack.add result (Variables.getVariable vars s).1)

/-- `calculate`. -/
def calculate (L : Lib) (p : Postfix) (vars : Variables) : Except Abort (Int × Option String) :=
  calculateLoop L vars p []

/-- How the loop of `calculate` ends when it does not abort: it has read every
element and leaves the evaluation stack, or it has returned an error from
inside the loop. -/
inductive LoopEnd where
  | stack (result : Stack Int)
  | returned (err : String)

/-- The loop of `calculate` alone, from the evaluation stack `result`, without
the final `return *result.last(), nil`: the stack it leaves. -/
def stackAfter (L : Lib) (vars : Variables) : List Element → Stack Int → Except Abort LoopEnd
  | [], result => .ok (.stack result)
  | .operator op :: rest, result =>
    let operator := Operator.convertAdmissibleOperator op
    match Stack.pop result with
    | .error e => .error e
    | .ok (b, result1) =>
      match Stack.pop result1 with
      | .error e => .error e
      | .ok (a, result2) =>
        if operator = "+" then stackAfter L vars rest (Stack.add result2 (wrapInt (a + b)))
        else if operator = "-" then stackAfter L vars rest (Stack.add result2 (wrapInt (a - b)))
        else if operator = "*" then stackAfter L vars rest (Stack.add result2 (wrapInt (a * b)))
        else if operator = "/" then
          if b = 0 then .error .divideByZero
          else stackAfter L vars rest (Stack.add result2 (wrapInt (Int.tdiv a b)))
        else if operator = "^" then stackAfter L vars rest (Stack.add result2 (L.mathPow a b))
        else stackAfter L vars rest result2
  | .operand s :: rest, result =>
    if isNumber L s then
      match getNumber s with
      | .error e => .error e
      | .ok n => stackAfter L vars rest (Stack.add result n)
    else if !Variables.isValidIdentifier L s then .ok (.returned "Invalid identifier")
    else if !(Variables.getVariable vars s).2 then .ok (.returned "Unknown variable")
    else stackAfter L vars rest (Stack.add result (Variables.getVariable vars s).1)

/-- The expression path of `main` for one input line: `addSpaces`, `validate`,
`convert` into an empty `Postfix`, `calculate`. A validation error is returned
like an error of `calculate`. -/
def pipeline (L : Lib) (vars : Variables) (input : String) : Except Abort (Int × Option String) :=
  let inf := Infix.addSpaces L input
  match Infix.validate inf with
  | some err => .ok (0, some err)
  | none =>
    match Postfix.convert [] inf with
    | .error a => .error a
    | .ok p => calculate L p vars

/-- An instance of `Lib` for evaluating the functions on ASCII input: outside
ASCII no character counts as a letter or a number. Its `mathPow` is the exact
integer power with a negative exponent read as zero, which is not Go's
`int(math.Pow(float64(a), float64(b)))` for a negative exponent or a power that
a `float64` does not hold exactly; no property stated here evaluates `^`. -/
def asciiLib : Lib where
  unicodeIsLetter := fun c => c.isAlpha
  unicodeIsNumber := fun c => c.isDigit
  mathPow := fun a b => wrapInt (a ^ b.toNat)
  letter_ascii := fun _ _ => rfl
  number_ascii := fun _ _ => rfl

/-- An instance of `Lib` in which, as in Unicode, the character U+00E9 (a Latin
small letter e with acute) is a letter besides the ASCII letters. -/
def accentLib : Lib where
  unicodeIsLetter := fun c => c.isAlpha || c == 'é'
  unicodeIsNumber := fun c => c.isDigit
  mathPow := fun a b => wrapInt (a ^ b.toNat)
  letter_ascii := by
    intro c h
    have hne : (c == 'é') = false := by
      rw [beq_eq_false_iff_ne]
      rintro rfl
      exact absurd h (by decide)
    simp [hne]
  number_ascii := fun _ _ => rfl

/-- The empty map of variables. -/
def noVariables : Variables := fun _ => none

/-! ## The standard algorithm, for comparison -/

/-- Following the specification's words, for an input without parentheses: one
step of the standard left-associative shunting-yard algorithm. On an incoming
operator of priority P the operators on the stack are popped and emitted only
while the top has priority at least P, then the operator is pushed; an operand
is emitted. -/
def standardElement (st : Stack Operator × Postfix) (element : String) : Stack Operator × Postfix :=
  if Operator.isOperator element then
    let r := popWhile
      (fun top => decide (Operator.getPriority top ≥ Operator.getPriority element)) st.1 st.2
    (Stack.add r.1 element, r.2)
  else (st.1, Postfix.append st.2 (.operand element))

/-- Following the specification's words: the standard left-associative
shunting-yard algorithm on a token sequence without parentheses; the operators
left on the stack are emitted at the end. -/
def standardShuntingYard (tokens : List String) : Postfix :=
  let st := tokens.foldl standardElement ([], [])
  (popWhile (fun _ => true) st.1 st.2).2

/-- The characters an integer literal is made of: decimal digits and signs. -/
def literalChar (c : Char) : Prop := c.isDigit = true ∨ c = '+' ∨ c = '-'

/-- Being a character of a literal can be computed. -/
instance literalChar.decidable (c : Char) : Decidable (literalChar c) :=
  inferInstanceAs (Decidable (c.isDigit = true ∨ c = '+' ∨ c = '-'))

/-- Following the specification's words: a non-empty text made solely of letters. -/
def lettersOnly (L : Lib) (s : String) : Prop :=
  s.data ≠ [] ∧ ∀ c ∈ s.data, L.unicodeIsLetter c = true

/-- Being made solely of letters can be computed. -/
instance lettersOnly.decidable (L : Lib) (s : String) : Decidable (lettersOnly L s) :=
  inferInstanceAs (Decidable (s.data ≠ [] ∧ ∀ c ∈ s.data, L.unicodeIsLetter c = true))

/-! ## Runs of characters -/

/-- The operator characters `+ - / * ^`. -/
def opChar (c : Char) : Bool := "+-/*^".data.contains c

/-- Following the specification's words: two adjacent characters belong to the
same class when both are digits, both are operator characters, or both are
letters. -/
def sameClass (L : Lib) (a b : Char) : Bool :=
  (b.isDigit && a.isDigit) || (opChar a && opChar b) ||
    (L.unicodeIsLetter b && L.unicodeIsLetter a)

/-- The maximal runs of a text: it is cut between two adjacent characters
exactly when they are not of the same class. -/
def runs (L : Lib) : List Char → List (List Char)
  | [] => []
  | [a] => [[a]]
  | a :: b :: rest =>
    match runs L (b :: rest) with
    | [] => [[a]]
    | run :: more => if sameClass L a b then (a :: run) :: more else [a] :: run :: more

/-! ## Ordinary token sequences -/

/-- An unsigned decimal number: a non-empty text of decimal digits. -/
def isUnsignedNumber (t : String) : Prop := t.data ≠ [] ∧ ∀ c ∈ t.data, c.isDigit = true

/-- An identifier of ASCII letters: a non-empty text of the letters `A`-`Z`, `a`-`z`. -/
def isAsciiIdentifier (t : String) : Prop := t.data ≠ [] ∧ ∀ c ∈ t.data, c.isAlpha = true

/-- An operand token: an unsigned number or an identifier of ASCII letters. -/
def isOperandToken (t : String) : Prop := isUnsignedNumber t ∨ isAsciiIdentifier t

/-- A single-character operator token. -/
def isOperatorToken (t : String) : Prop := t = "+" ∨ t = "-" ∨ t = "*" ∨ t = "/" ∨ t = "^"

/-- A parenthesis token. -/
def isParenToken (t : String) : Prop := t = "(" ∨ t = ")"

/-- A token of an ordinary expression. -/
def ordinaryToken (t : String) : Prop := isOperandToken t ∨ isOperatorToken t ∨ isParenToken t

/-- No two operands are adjacent and no two operators are adjacent. -/
def separated : List String → Prop
  | [] => True
  | [_] => True
  | s :: t :: rest =>
    (¬ (isOperandToken s ∧ isOperandToken t) ∧ ¬ (isOperatorToken s ∧ isOperatorToken t)) ∧
      separated (t :: rest)

/-- Being an ordinary token can be computed. -/
instance ordinaryToken.decidable (t : String) : Decidable (ordinaryToken t) :=
  inferInstanceAs (Decidable (((t.data ≠ [] ∧ ∀ c ∈ t.data, c.isDigit = true) ∨
    (t.data ≠ [] ∧ ∀ c ∈ t.data, c.isAlpha = true)) ∨
    (t = "+" ∨ t = "-" ∨ t = "*" ∨ t = "/" ∨ t = "^") ∨ (t = "(" ∨ t = ")")))

/-- Being an operand token can be computed. -/
instance isOperandToken.decidable (t : String) : Decidable (isOperandToken t) :=
  inferInstanceAs (Decidable ((t.data ≠ [] ∧ ∀ c ∈ t.data, c.isDigit = true) ∨
    (t.data ≠ [] ∧ ∀ c ∈ t.data, c.isAlpha = true)))

/-- Being an operator token can be computed. -/
instance isOperatorToken.decidable (t : String) : Decidable (isOperatorToken t) :=
  inferInstanceAs (Decidable (t = "+" ∨ t = "-" ∨ t = "*" ∨ t = "/" ∨ t = "^"))

/-- Being separated can be computed. -/
instance separated.decidable : (tokens : List String) → Decidable (separated tokens)
  | [] => isTrue trivial
  | [_] => isTrue trivial
  | s :: t :: rest =>
    have := separated.decidable (t :: rest)
    inferInstanceAs (Decidable ((¬ (isOperandToken s ∧ isOperandToken t) ∧
      ¬ (isOperatorToken s ∧ isOperatorToken t)) ∧ separated (t :: rest)))

/-- A sign followed by an unsigned number. -/
def signedNumber (tokens : List String) : Prop :=
  ∃ s n, tokens = [s, n] ∧ (s = "+" ∨ s = "-") ∧ isUnsignedNumber n

/-- The tokens concatenated without spaces. -/
def concatTokens (tokens : List String) : String := String.mk (tokens.flatMap String.data)

/-- The characters of the tokens joined by single spaces. -/
def joinChars : List String → List Char
  | [] => []
  | [t] => t.data
  | t :: next :: rest => t.data ++ ' ' :: joinChars (next :: rest)

/-- The tokens joined by single spaces. -/
def joinTokens (tokens : List String) : String := String.mk (joinChars tokens)

/-- What the two replacements of `addSpaces` in the spaced form write for one
character: a space after `(`, a space before `)`. -/
def parenSpaces (c : Char) : List Char :=
  if c = '(' then ['(', ' '] else if c = ')' then [' ', ')'] else [c]

/-! ## Fully parenthesised expressions -/

/-- Following the specification's words: a fully parenthesised expression,
`E ::= operand | ( E op E )`. -/
inductive Paren where
  | operand (s : String)
  | binary (left : Paren) (op : String) (right : Paren)
  deriving Repr

/-- The tokens of a fully parenthesised expression, in input order. -/
def Paren.tokens : Paren → List String
  | .operand s => [s]
  | .binary left op right => "(" :: (left.tokens ++ op :: (right.tokens ++ [")"]))

/-- Number of operands of an expression. -/
def Paren.operands : Paren → Nat
  | .operand _ => 1
  | .binary left _ right => left.operands + right.operands

/-- Number of binary operators of an expression. -/
def Paren.operators : Paren → Nat
  | .operand _ => 0
  | .binary left _ right => left.operators + 1 + right.operators

/-- An expression is well formed when its operands are tokens `convert` reads
as operands and its operators are tokens it reads as operators, other than the
parentheses. -/
def Paren.wellFormed : Paren → Prop
  | .operand s => Operator.isOperator s = false
  | .binary left op right =>
    left.wellFormed ∧ (Operator.isOperator op = true ∧ op ≠ "(" ∧ op ≠ ")") ∧ right.wellFormed

/-- Well-formedness can be computed. -/
instance Paren.decidableWellFormed : (E : Paren) → Decidable E.wellFormed
  | .operand s => inferInstanceAs (Decidable (Operator.isOperator s = false))
  | .binary left op right =>
    have := Paren.decidableWellFormed left
    have := Paren.decidableWellFormed right
    inferInstanceAs (Decidable (left.wellFormed ∧
      (Operator.isOperator op = true ∧ op ≠ "(" ∧ op ≠ ")") ∧ right.wellFormed))

/-- The postfix form of an expression: both operands, then the operator. -/
def Paren.toPostfix : Paren → Postfix
  | .operand s => [.operand s]
  | .binary left op right => left.toPostfix ++ right.toPostfix ++ [.operator op]

/-! ## Properties -/

theorem utf8Size_of_lt (c : Char) (h : c.toNat < 128) : c.utf8Size = 1 := by
  have h1 : c.val ≤ 127 := by
    rw [UInt32.le_def]
    show c.val.toNat ≤ 127
    have : c.toNat = c.val.toNat := rfl
    omega
  simp [Char.utf8Size, h1]

theorem byteLen_cons (c : Char) (cs : List Char) : byteLen (c :: cs) = c.utf8Size + byteLen cs := by
  simp [byteLen]

theorem byteLen_of_ascii (cs : List Char) (h : ∀ c ∈ cs, c.toNat < 128) : byteLen cs = cs.length := by
  induction cs with
  | nil => rfl
  | cons c cs ih =>
    rw [byteLen_cons, utf8Size_of_lt c (h c (by simp)), ih (fun d hd => h d (by simp [hd]))]
    simp; omega

theorem countP_le_byteLen (p : Char → Bool) (cs : List Char) : cs.countP p ≤ byteLen cs := by
  induction cs with
  | nil => simp [byteLen]
  | cons c cs ih =>
    rw [byteLen_cons, List.countP_cons]
    have := Char.utf8Size_pos c
    split <;> omega

/-- When the bytes of a text are as many as its characters satisfying `p`, every
character satisfies `p` and is one byte long. -/
theorem byteLen_eq_countP (p : Char → Bool) (cs : List Char) :
    byteLen cs = cs.countP p ↔ ∀ c ∈ cs, p c = true ∧ c.utf8Size = 1 := by
  induction cs with
  | nil => simp [byteLen]
  | cons c cs ih =>
    rw [byteLen_cons, List.countP_cons]
    have hpos := Char.utf8Size_pos c
    have hle := countP_le_byteLen p cs
    constructor
    · intro h
      by_cases hp : p c = true
      · simp only [hp, if_true] at h
        have h1 : byteLen cs = cs.countP p := by omega
        have h2 : c.utf8Size = 1 := by omega
        intro d hd
        rcases List.mem_cons.1 hd with rfl | hd
        · exact ⟨hp, h2⟩
        · exact (ih.1 h1) d hd
      · simp only [hp] at h
        simp at h
        omega
    · intro h
      have hc := h c (by simp)
      have h1 := ih.2 (fun d hd => h d (by simp [hd]))
      simp [hc.1, hc.2, h1]; omega


theorem sign_toNat_lt (c : Char) (h : c = '+' ∨ c = '-') : c.toNat < 128 := by
  rcases h with rfl | rfl <;> decide

/-- A non-empty text of `+` and `-` characters is an operator. -/
theorem isOperator_sign_run (op : String) (hsign : ∀ c ∈ op.data, c = '+' ∨ c = '-') :
    Operator.isOperator op = true := by
  have hlen : len op = op.data.length :=
    byteLen_of_ascii _ fun c hc => sign_toNat_lt c (hsign c hc)
  have hcount : op.data.countP (fun r => r == '-' || r == '+') = op.data.length := by
    rw [List.countP_eq_length]
    intro c hc
    rcases hsign c hc with rfl | rfl <;> decide
  unfold Operator.isOperator
  split
  · rfl
  · simp [hlen, hcount]

/-- C2: a non-empty run of `+` and `-` characters resolves to `+` when it holds a
`+`, and a run of `-` alone to `+` when its length is even and to `-` when it is
odd; `*`, `/` and `^` are left as they are; so `--`, `+--` and `----` resolve to
`+` and `---` to `-`. -/
theorem convertAdmissibleOperator_sign_run (op : String) (hne : op.data ≠ [])
    (hsign : ∀ c ∈ op.data, c = '+' ∨ c = '-') :
    Operator.convertAdmissibleOperator op =
        (if '+' ∈ op.data then "+" else if op.data.length % 2 = 0 then "+" else "-") ∧
      Operator.convertAdmissibleOperator "*" = "*" ∧
      Operator.convertAdmissibleOperator "/" = "/" ∧
      Operator.convertAdmissibleOperator "^" = "^" ∧
      Operator.convertAdmissibleOperator "--" = "+" ∧
      Operator.convertAdmissibleOperator "---" = "-" ∧
      Operator.convertAdmissibleOperator "+--" = "+" ∧
      Operator.convertAdmissibleOperator "----" = "+" := by
  refine ⟨?_, by decide, by decide, by decide, by decide, by decide, by decide, by decide⟩
  have hop := isOperator_sign_run op hsign
  have hlen : len op = op.data.length :=
    byteLen_of_ascii _ fun c hc => sign_toNat_lt c (hsign c hc)
  have hany : containsAny op "+-" = true := by
    obtain ⟨c, cs, hcs⟩ := List.exists_cons_of_ne_nil hne
    have hc := hsign c (by simp [hcs])
    simp only [containsAny, hcs, List.any_cons]
    rcases hc with rfl | rfl <;> simp
  unfold Operator.convertAdmissibleOperator
  simp only [hop, hany, hlen, containsChar]
  by_cases hplus : '+' ∈ op.data
  · simp [hplus]
  · by_cases hev : op.data.length % 2 = 0
    · simp [hplus, hev]
    · simp [hplus, hev]

theorem convertAdmissibleOperator_sign_run_witness :
    Operator.convertAdmissibleOperator "-+-" = "+" :=
  (convertAdmissibleOperator_sign_run "-+-" (by decide) (by decide)).1

/-- C1: on `1 + 2 * 3 * 4` the converter does not produce the sequence of the
standard shunting-yard algorithm: at the second `*` it pops the `+` beneath the
first `*` as well, so the line evaluates to `(1 + 2 * 3) * 4 = 28` where the
standard sequence gives `25`. On `3 + 4 * 2` the two agree. -/
theorem convert_differs_from_standardShuntingYard :
    fields "1 + 2 * 3 * 4" = ["1", "+", "2", "*", "3", "*", "4"] ∧
    Postfix.convert [] "1 + 2 * 3 * 4" =
      .ok [.operand "1", .operand "2", .operand "3", .operator "*", .operator "+",
        .operand "4", .operator "*"] ∧
    standardShuntingYard ["1", "+", "2", "*", "3", "*", "4"] =
      [.operand "1", .operand "2", .operand "3", .operator "*", .operand "4",
        .operator "*", .operator "+"] ∧
    pipeline asciiLib noVariables "1 + 2 * 3 * 4" = .ok (28, none) ∧
    calculate asciiLib (standardShuntingYard ["1", "+", "2", "*", "3", "*", "4"]) noVariables =
      .ok (25, none) ∧
    Postfix.convert [] "3 + 4 * 2" =
      .ok [.operand "3", .operand "4", .operand "2", .operator "*", .operator "+"] ∧
    standardShuntingYard (fields "3 + 4 * 2") =
      [.operand "3", .operand "4", .operand "2", .operator "*", .operator "+"] :=
  ⟨by rfl, by rfl, by rfl, by rfl, by rfl, by rfl, by rfl⟩

/-- C4: a sign run of two or more characters has converter priority 0, not the
priority 1 of the sign it resolves to: in `1 --- 2 - 3` the run `---` resolves
to `-`, yet the line evaluates to `1 - (2 - 3) = 2` while `1 - 2 - 3` evaluates
to `-4`. -/
theorem sign_run_not_like_resolved_sign :
    Operator.getPriority "---" = 0 ∧
    Operator.getPriority "--" = 0 ∧
    Operator.getPriority "-" = 1 ∧
    Operator.convertAdmissibleOperator "---" = "-" ∧
    Postfix.convert [] "1 --- 2 - 3" =
      .ok [.operand "1", .operand "2", .operand "3", .operator "-", .operator "---"] ∧
    pipeline asciiLib noVariables "1 --- 2 - 3" = .ok (2, none) ∧
    Postfix.convert [] "1 - 2 - 3" =
      .ok [.operand "1", .operand "2", .operator "-", .operand "3", .operator "-"] ∧
    pipeline asciiLib noVariables "1 - 2 - 3" = .ok (-4, none) :=
  ⟨by decide, by decide, by decide, by decide, by rfl, by rfl, by rfl, by rfl⟩

/-- C5: a `)` that arrives while the top of the operator stack is `(` is pushed
onto the stack instead of closing the parenthesis: after `( 3 )` the stack holds
`)` above `(`, and the accepted line `2 * ( 3 ) + 1` is converted to
`2 3 1 + *` and evaluates to `8`. -/
theorem close_paren_pushed_on_open_paren :
    Infix.validate "( 3 )" = none ∧
    convertLoop (fields "( 3 )") ([], []) = .ok ([")", "("], [.operand "3"]) ∧
    Infix.validate (Infix.addSpaces asciiLib "2 * ( 3 ) + 1") = none ∧
    Postfix.convert [] (Infix.addSpaces asciiLib "2 * ( 3 ) + 1") =
      .ok [.operand "2", .operand "3", .operand "1", .operator "+", .operator "*"] ∧
    pipeline asciiLib noVariables "2 * ( 3 ) + 1" = .ok (8, none) ∧
    pipeline asciiLib noVariables "2 * 3 + 1" = .ok (7, none) :=
  ⟨by rfl, by rfl, by rfl, by rfl, by rfl, by rfl⟩

/-! ### Integer literals -/

theorem isDigit_iff (c : Char) : c.isDigit = true ↔ 48 ≤ c.toNat ∧ c.toNat ≤ 57 := by
  have h : c.toNat = c.val.toNat := rfl
  simp only [Char.isDigit, Bool.and_eq_true, decide_eq_true_eq, ge_iff_le, UInt32.le_def, h]
  rfl

theorem toNat_ne_of_ne (c d : Char) (h : c.toNat ≠ d.toNat) : c ≠ d := by
  rintro rfl; exact h rfl

theorem literalChar_toNat (c : Char) (h : literalChar c) :
    (48 ≤ c.toNat ∧ c.toNat ≤ 57) ∨ c.toNat = 43 ∨ c.toNat = 45 := by
  rcases h with h | rfl | rfl
  · exact Or.inl ((isDigit_iff c).1 h)
  · exact Or.inr (Or.inl rfl)
  · exact Or.inr (Or.inr rfl)

theorem literalChar_not_space (c : Char) (h : literalChar c) : isSpace c = false := by
  have := literalChar_toNat c h
  simp only [isSpace]
  rcases this with ⟨h1, h2⟩ | h1 | h1
  · have e1 : ¬ (c.toNat ≤ 13) := by omega
    have e2 : ¬ (8192 ≤ c.toNat) := by omega
    simp [e1, e2]; omega
  · simp [h1]
  · simp [h1]


theorem parseDigits_some (ds : List Char) (n : Nat) (h : parseDigits ds = some n) :
    ds ≠ [] ∧ ∀ c ∈ ds, c.isDigit = true := by
  unfold parseDigits at h
  split at h
  · cases h
  · rename_i hc
    push_neg at hc
    refine ⟨hc.1, ?_⟩
    have h2 : ds.all Char.isDigit = true := by simpa using hc.2
    simpa [List.all_eq_true] using h2

theorem digit_lt (c : Char) (h : c.isDigit = true) : c.toNat < 128 := by
  have := (isDigit_iff c).1 h; omega

theorem digit_not_sign (c : Char) (h : c.isDigit = true) : (c == '-' || c == '+') = false := by
  have h1 := (isDigit_iff c).1 h
  have e1 : c ≠ '-' := toNat_ne_of_ne _ _ (by show c.toNat ≠ 45; omega)
  have e2 : c ≠ '+' := toNat_ne_of_ne _ _ (by show c.toNat ≠ 43; omega)
  simp [e1, e2]

/-- A non-empty run of decimal digits passes the test of `isNumber`. -/
theorem digits_count (L : Lib) (ds : List Char) (hd : ∀ c ∈ ds, c.isDigit = true) :
    byteLen ds = ds.countP L.unicodeIsNumber ∧ ds.countP L.unicodeIsNumber = ds.length := by
  have h1 : ds.countP L.unicodeIsNumber = ds.length := by
    rw [List.countP_eq_length]
    intro c hc
    rw [L.number_ascii c (digit_lt c (hd c hc))]; exact hd c hc
  have h2 : byteLen ds = ds.length := byteLen_of_ascii ds fun c hc => digit_lt c (hd c hc)
  exact ⟨by rw [h1, h2], h1⟩

theorem countP_sign_digits (ds : List Char) (hd : ∀ c ∈ ds, c.isDigit = true) :
    ds.countP (fun r => r == '-' || r == '+') = 0 := by
  rw [List.countP_eq_zero]
  intro c hc
  simp [digit_not_sign c (hd c hc)]

theorem digit_not_special (c : Char) (h : c.isDigit = true) :
    c ≠ '*' ∧ c ≠ '/' ∧ c ≠ '(' ∧ c ≠ ')' ∧ c ≠ '^' := by
  have hcd := (isDigit_iff c).1 h
  refine ⟨?_, ?_, ?_, ?_, ?_⟩ <;> apply toNat_ne_of_ne
  · show c.toNat ≠ 42; omega
  · show c.toNat ≠ 47; omega
  · show c.toNat ≠ 40; omega
  · show c.toNat ≠ 41; omega
  · show c.toNat ≠ 94; omega

/-- A sign followed by decimal digits is a number and not an operator. -/
theorem signed_literal (L : Lib) (s : String) (c : Char) (cs : List Char) (hs : s.data = c :: cs)
    (hsign : c = '+' ∨ c = '-') (hne : cs ≠ []) (hd : ∀ d ∈ cs, d.isDigit = true) :
    isNumber L s = true ∧ Operator.isOperator s = false := by
  obtain ⟨hb, hc⟩ := digits_count L cs hd
  have hlen : 0 < cs.length := List.length_pos.2 hne
  have h0 := countP_sign_digits cs hd
  have hbl : byteLen cs = cs.length := by rw [hb, hc]
  have hsz : c.utf8Size = 1 := utf8Size_of_lt c (sign_toNat_lt c hsign)
  have e1 : byteLen (c :: cs) = 1 + cs.length := by rw [byteLen_cons, hbl, hsz]
  have hcs : (c == '-' || c == '+') = true := by rcases hsign with rfl | rfl <;> decide
  constructor
  · unfold isNumber
    rw [hs]
    simp only [if_pos hsign, hb, hc]
    simp [hne]
  · unfold Operator.isOperator len
    rw [hs, e1, List.countP_cons, h0, if_pos hcs]
    simp [hne]

/-- A non-empty run of decimal digits is a number and not an operator. -/
theorem unsigned_literal (L : Lib) (s : String) (c : Char) (cs : List Char) (hs : s.data = c :: cs)
    (hd : ∀ d ∈ c :: cs, d.isDigit = true) :
    isNumber L s = true ∧ Operator.isOperator s = false := by
  obtain ⟨hb, hc⟩ := digits_count L (c :: cs) hd
  have h0 := countP_sign_digits (c :: cs) hd
  have hbl : byteLen (c :: cs) = (c :: cs).length := by rw [hb, hc]
  have hcd := hd c (by simp)
  have hns := digit_not_sign c hcd
  have hp : ¬ (c = '+' ∨ c = '-') := by
    intro h
    rcases h with rfl | rfl <;> simp at hns
  constructor
  · unfold isNumber
    rw [hs]
    simp only [if_neg hp, hb, hc]
    simp
  · have hsp : ∀ d ∈ c :: cs, ("*/()^".data.contains d) = false := by
      intro d hdm
      obtain ⟨e1, e2, e3, e4, e5⟩ := digit_not_special d (hd d hdm)
      have b1 : (d == '*') = false := by simp [e1]
      have b2 : (d == '/') = false := by simp [e2]
      have b3 : (d == '(') = false := by simp [e3]
      have b4 : (d == ')') = false := by simp [e4]
      have b5 : (d == '^') = false := by simp [e5]
      simp [List.contains, List.elem, b1, b2, b3, b4, b5]
    have hany : containsAny s "*/()^" = false := by
      unfold containsAny
      rw [hs, List.any_eq_false]
      intro d hdm
      rw [hsp d hdm]; simp
    unfold Operator.isOperator len
    simp only [hany, hs, h0, hbl]
    simp

/-- What `strconv.Atoi` accepts: the text is not empty, is made of digits and
signs, passes `isNumber`, is not an operator, and `getNumber` returns its value. -/
theorem atoi_some (L : Lib) (s : String) (a : Int) (h : atoi s = some a) :
    s.data ≠ [] ∧ (∀ c ∈ s.data, literalChar c) ∧ isNumber L s = true ∧
      Operator.isOperator s = false ∧ getNumber s = .ok a := by
  have hget : getNumber s = .ok a := by simp [getNumber, h]
  unfold atoi at h
  cases hs : s.data with
  | nil => simp [hs] at h
  | cons c cs =>
    simp only [hs] at h
    by_cases hp : c = '+'
    · simp only [hp, if_true] at h
      cases hpd : parseDigits cs with
      | none => simp [hpd] at h
      | some n =>
        obtain ⟨hne, hd⟩ := parseDigits_some cs n hpd
        obtain ⟨h1, h2⟩ := signed_literal L s c cs hs (Or.inl hp) hne hd
        refine ⟨by simp, ?_, h1, h2, hget⟩
        intro d hd1
        rcases List.mem_cons.1 hd1 with rfl | hd1
        · exact Or.inr (Or.inl hp)
        · exact Or.inl (hd d hd1)
    · by_cases hm : c = '-'
      · simp only [hm, if_true] at h
        cases hpd : parseDigits cs with
        | none => simp [hpd] at h
        | some n =>
          obtain ⟨hne, hd⟩ := parseDigits_some cs n hpd
          obtain ⟨h1, h2⟩ := signed_literal L s c cs hs (Or.inr hm) hne hd
          refine ⟨by simp, ?_, h1, h2, hget⟩
          intro d hd1
          rcases List.mem_cons.1 hd1 with rfl | hd1
          · exact Or.inr (Or.inr hm)
          · exact Or.inl (hd d hd1)
      · simp only [hp, hm, if_false] at h
        cases hpd : parseDigits (c :: cs) with
        | none => simp [hpd] at h
        | some n =>
          obtain ⟨hne, hd⟩ := parseDigits_some (c :: cs) n hpd
          obtain ⟨h1, h2⟩ := unsigned_literal L s c cs hs hd
          exact ⟨by simp, fun d hd1 => Or.inl (hd d hd1), h1, h2, hget⟩

/-! ### 64-bit arithmetic -/

theorem wrapInt_of_inRange (n : Int) (h1 : minInt ≤ n) (h2 : n ≤ maxInt) : wrapInt n = n := by
  unfold minInt at h1
  unfold maxInt at h2
  unfold wrapInt
  omega

theorem atoi_inRange (s : String) (a : Int) (h : atoi s = some a) : minInt ≤ a ∧ a ≤ maxInt := by
  unfold atoi at h
  have hmm : minInt ≤ 0 ∧ (0 : Int) ≤ maxInt := by decide
  cases hs : s.data with
  | nil => simp [hs] at h
  | cons c cs =>
    simp only [hs] at h
    split at h
    · cases hpd : parseDigits cs with
      | none => simp [hpd] at h
      | some n =>
        simp only [hpd, Option.some_bind] at h
        split at h
        · cases h; constructor <;> omega
        · cases h
    · split at h
      · cases hpd : parseDigits cs with
        | none => simp [hpd] at h
        | some n =>
          simp only [hpd, Option.some_bind] at h
          split at h
          · cases h; constructor <;> omega
          · cases h
      · cases hpd : parseDigits (c :: cs) with
        | none => simp [hpd] at h
        | some n =>
          simp only [hpd, Option.some_bind] at h
          split at h
          · cases h; constructor <;> omega
          · cases h

/-- The truncated quotient of two `int` values is an `int` value, except for
the smallest `int` divided by `-1`. -/
theorem tdiv_inRange (a b : Int) (ha : minInt ≤ a ∧ a ≤ maxInt) (hb : b ≠ 0)
    (hov : ¬ (a = minInt ∧ b = -1)) : minInt ≤ Int.tdiv a b ∧ Int.tdiv a b ≤ maxInt := by
  unfold minInt maxInt at *
  by_cases hb1 : b = -1
  · subst hb1
    have : Int.tdiv a (-1) = -a := by
      rw [Int.tdiv_neg]; simp
    rw [this]
    have : a ≠ -9223372036854775808 := fun h => hov ⟨h, rfl⟩
    omega
  · by_cases hb2 : b = 1
    · subst hb2
      rw [Int.tdiv_one]; omega
    · have hle : (Int.tdiv a b).natAbs ≤ a.natAbs / 2 := by
        rw [Int.natAbs_tdiv]
        exact Nat.div_le_div_left (by omega) (by omega)
      omega

/-! ### Evaluation -/

/-- An integer literal is pushed on the evaluation stack. -/
theorem calculateLoop_literal (L : Lib) (vars : Variables) (s : String) (a : Int)
    (h : atoi s = some a) (rest : List Element) (result : Stack Int) :
    calculateLoop L vars (.operand s :: rest) result =
      calculateLoop L vars rest (a :: result) := by
  obtain ⟨_, _, hnum, _, hget⟩ := atoi_some L s a h
  simp [calculateLoop, hnum, hget, Stack.add]

/-- C9: for integer literals of values `a` and `b`, `calculate` on the postfix
sequence `a b OP` returns Go's `a OP b` for `+`, `-`, `*` and, when `b` is not
zero, for `/`, with `a` as the left and `b` as the right operand: the exact
sum, difference or product whenever that is an `int`, and the quotient
truncated toward zero (except for the smallest `int` divided by `-1`, where Go
wraps around). -/
theorem calculate_binary (L : Lib) (vars : Variables) (sa sb : String) (a b : Int)
    (ha : atoi sa = some a) (hb : atoi sb = some b) :
    calculate L [.operand sa, .operand sb, .operator "+"] vars = .ok (wrapInt (a + b), none) ∧
    calculate L [.operand sa, .operand sb, .operator "-"] vars = .ok (wrapInt (a - b), none) ∧
    calculate L [.operand sa, .operand sb, .operator "*"] vars = .ok (wrapInt (a * b), none) ∧
    (b ≠ 0 →
      calculate L [.operand sa, .operand sb, .operator "/"] vars =
        .ok (wrapInt (Int.tdiv a b), none)) ∧
    (minInt ≤ a + b → a + b ≤ maxInt → wrapInt (a + b) = a + b) ∧
    (minInt ≤ a - b → a - b ≤ maxInt → wrapInt (a - b) = a - b) ∧
    (minInt ≤ a * b → a * b ≤ maxInt → wrapInt (a * b) = a * b) ∧
    (b ≠ 0 → ¬ (a = minInt ∧ b = -1) → wrapInt (Int.tdiv a b) = Int.tdiv a b) ∧
    Int.tdiv 7 2 = 3 ∧ Int.tdiv (-7) 2 = -3 := by
  have hplus : Operator.convertAdmissibleOperator "+" = "+" := by decide
  have hminus : Operator.convertAdmissibleOperator "-" = "-" := by decide
  have htimes : Operator.convertAdmissibleOperator "*" = "*" := by decide
  have hdiv : Operator.convertAdmissibleOperator "/" = "/" := by decide
  refine ⟨?_, ?_, ?_, ?_, wrapInt_of_inRange _, wrapInt_of_inRange _, wrapInt_of_inRange _,
    ?_, by decide, by decide⟩
  · rw [calculate, calculateLoop_literal L vars _ _ ha, calculateLoop_literal L vars _ _ hb]
    simp [calculateLoop, hplus, Stack.pop, Stack.add, Stack.last]
  · rw [calculate, calculateLoop_literal L vars _ _ ha, calculateLoop_literal L vars _ _ hb]
    simp [calculateLoop, hminus, Stack.pop, Stack.add, Stack.last]
  · rw [calculate, calculateLoop_literal L vars _ _ ha, calculateLoop_literal L vars _ _ hb]
    simp [calculateLoop, htimes, Stack.pop, Stack.add, Stack.last]
  · intro hb0
    rw [calculate, calculateLoop_literal L vars _ _ ha, calculateLoop_literal L vars _ _ hb]
    simp [calculateLoop, hdiv, Stack.pop, Stack.add, Stack.last, hb0]
  · intro hb0 hov
    obtain ⟨h1, h2⟩ := tdiv_inRange a b (atoi_inRange sa a ha) hb0 hov
    exact wrapInt_of_inRange _ h1 h2

theorem calculate_binary_witness :
    calculate asciiLib [.operand "-7", .operand "2", .operator "/"] noVariables = .ok (-3, none) :=
  ((calculate_binary asciiLib noVariables "-7" "2" (-7) 2 (by rfl) (by rfl)).2.2.2.1
    (by decide)).trans (by rw [show wrapInt (Int.tdiv (-7) 2) = -3 by decide])

/-- C8, at `7 / 0`: the evaluation aborts with Go's integer-divide-by-zero
panic; no error value is returned. -/
theorem calculate_seven_by_zero_aborts :
    calculate asciiLib [.operand "7", .operand "0", .operator "/"] noVariables =
        .error .divideByZero ∧
      pipeline asciiLib noVariables "7 / 0" = .error .divideByZero ∧
      ¬ ∃ r, calculate asciiLib [.operand "7", .operand "0", .operator "/"] noVariables = .ok r := by
  refine ⟨by rfl, by rfl, ?_⟩
  rintro ⟨r, hr⟩
  have h : calculate asciiLib [.operand "7", .operand "0", .operator "/"] noVariables =
      .error .divideByZero := by rfl
  rw [h] at hr
  cases hr

/-- C8, amended: for every integer literal of value `a` and every literal of
value zero, `calculate` on the postfix sequence `a 0 /` returns neither a
number nor an error value: the division raises Go's integer-divide-by-zero
panic, which aborts the evaluation. -/
theorem calculate_division_by_zero (L : Lib) (vars : Variables) (sa sz : String) (a : Int)
    (ha : atoi sa = some a) (hz : atoi sz = some 0) :
    calculate L [.operand sa, .operand sz, .operator "/"] vars = .error .divideByZero := by
  have hdiv : Operator.convertAdmissibleOperator "/" = "/" := by decide
  rw [calculate, calculateLoop_literal L vars _ _ ha, calculateLoop_literal L vars _ _ hz]
  simp [calculateLoop, hdiv, Stack.pop]

theorem calculate_division_by_zero_witness :
    calculate asciiLib [.operand "-12", .operand "0", .operator "/"] noVariables =
      .error .divideByZero :=
  calculate_division_by_zero asciiLib noVariables "-12" "0" (-12) (by rfl) (by rfl)

/-- The only error values the loop of `calculate` returns. -/
theorem calculateLoop_error (L : Lib) (vars : Variables) (p : List Element) :
    ∀ (result : Stack Int) (n : Int) (msg : String),
      calculateLoop L vars p result = .ok (n, some msg) →
        n = 0 ∧ (msg = "Invalid identifier" ∨ msg = "Unknown variable") := by
  induction p with
  | nil =>
    intro result n msg h
    cases result with
    | nil => simp [calculateLoop, Stack.last] at h
    | cons v rest => simp [calculateLoop, Stack.last] at h
  | cons e rest ih =>
    intro result n msg h
    cases e with
    | operator op =>
      rw [calculateLoop] at h
      cases result with
      | nil => simp [Stack.pop] at h
      | cons b r1 =>
        cases r1 with
        | nil => simp [Stack.pop] at h
        | cons a r2 =>
          simp only [Stack.pop] at h
          split at h
          · exact ih _ n msg h
          · split at h
            · exact ih _ n msg h
            · split at h
              · exact ih _ n msg h
              · split at h
                · split at h
                  · cases h
                  · exact ih _ n msg h
                · split at h
                  · exact ih _ n msg h
                  · exact ih _ n msg h
    | operand s =>
      rw [calculateLoop] at h
      split at h
      · split at h
        · cases h
        · exact ih _ n msg h
      · split at h
        · cases h; exact ⟨rfl, Or.inl rfl⟩
        · split at h
          · cases h; exact ⟨rfl, Or.inr rfl⟩
          · exact ih _ n msg h

/-- C10, at `5 -`, the empty sequence and `2 3`: the first two abort the
evaluation and the third returns the number `3`; none fails with an error
value. -/
theorem calculate_malformed_examples :
    calculate asciiLib [.operand "5", .operator "-"] noVariables = .error .indexOutOfRange ∧
      calculate asciiLib [] noVariables = .error .nilDereference ∧
      calculate asciiLib [.operand "2", .operand "3"] noVariables = .ok (3, none) :=
  ⟨by rfl, by rfl, by rfl⟩

/-- The loop of `calculate` over a sequence in two parts: the second part is
read from the stack the first part leaves. -/
theorem calculateLoop_append (L : Lib) (vars : Variables) (p q : List Element) :
    ∀ result : Stack Int,
      calculateLoop L vars (p ++ q) result =
        match stackAfter L vars p result with
        | .error a => .error a
        | .ok (.returned err) => .ok (0, some err)
        | .ok (.stack s) => calculateLoop L vars q s := by
  induction p with
  | nil => intro result; simp [stackAfter]
  | cons e rest ih =>
    intro result
    cases e with
    | operator op =>
      simp only [List.cons_append, calculateLoop, stackAfter]
      cases result with
      | nil => simp [Stack.pop]
      | cons b r1 =>
        cases r1 with
        | nil => simp [Stack.pop]
        | cons a r2 =>
          simp only [Stack.pop]
          split_ifs <;> first | rfl | exact ih _
    | operand s =>
      simp only [List.cons_append, calculateLoop, stackAfter]
      split_ifs
      · cases getNumber s with
        | error e => rfl
        | ok n => exact ih _
      · rfl
      · rfl
      · exact ih _

/-- The result of `calculate` from the stack its loop leaves. -/
theorem calculate_of_stackAfter (L : Lib) (vars : Variables) (p : Postfix) (s : Stack Int)
    (hp : stackAfter L vars p [] = .ok (.stack s)) :
    calculate L p vars =
      match Stack.last s with
      | none => .error .nilDereference
      | some v => .ok (v, none) := by
  have h := calculateLoop_append L vars p [] []
  rw [List.append_nil, hp] at h
  rw [calculate, h]
  cases s <;> simp [calculateLoop, Stack.last]

/-- C10, amended: `calculate` has no error for a malformed postfix sequence. The
only error values it returns are "Invalid identifier" and "Unknown variable". It
returns a number exactly when its loop reads the whole sequence and leaves a
stack that is not empty, and the number is the value on top, whatever is left
beneath it (`2 3` returns `3`). When the loop over a sequence `p` leaves fewer
than two values and an operator follows, and when it leaves no value after the
last token, the evaluation aborts: no number and no error value is returned. -/
theorem calculate_no_malformed_error (L : Lib) (vars : Variables) (p : Postfix) (s : Stack Int)
    (hp : stackAfter L vars p [] = .ok (.stack s)) :
    (∀ (q : Postfix) (n : Int) (msg : String), calculate L q vars = .ok (n, some msg) →
      n = 0 ∧ (msg = "Invalid identifier" ∨ msg = "Unknown variable")) ∧
    (∀ (q : Postfix) (n : Int), calculate L q vars = .ok (n, none) →
      ∃ rest, stackAfter L vars q [] = .ok (.stack (n :: rest))) ∧
    (∀ (v : Int) (rest : Stack Int), s = v :: rest → calculate L p vars = .ok (v, none)) ∧
    (s = [] → calculate L p vars = .error .nilDereference) ∧
    (∀ (op : Operator) (q : Postfix), s.length < 2 →
      calculate L (p ++ .operator op :: q) vars = .error .indexOutOfRange) := by
  refine ⟨fun q n msg h => calculateLoop_error L vars q [] n msg h, ?_, ?_, ?_, ?_⟩
  · intro q n h
    have happ := calculateLoop_append L vars q [] []
    rw [List.append_nil] at happ
    rw [calculate, happ] at h
    cases hq : stackAfter L vars q [] with
    | error a => rw [hq] at h; cases h
    | ok e =>
      rw [hq] at h
      cases e with
      | returned err => cases h
      | stack t =>
        cases t with
        | nil => simp [calculateLoop, Stack.last] at h
        | cons v rest =>
          simp [calculateLoop, Stack.last] at h
          exact ⟨rest, by rw [h]⟩
  · intro v rest hs
    rw [calculate_of_stackAfter L vars p s hp, hs]
    rfl
  · intro hs
    rw [calculate_of_stackAfter L vars p s hp, hs]
    rfl
  · intro op q hlen
    rw [calculate, calculateLoop_append L vars p _ [], hp]
    cases s with
    | nil => simp [calculateLoop, Stack.pop]
    | cons b r1 =>
      cases r1 with
      | nil => simp [calculateLoop, Stack.pop]
      | cons a r2 => exact absurd hlen (by simp)

theorem calculate_no_malformed_error_witness :
    calculate asciiLib [.operand "1", .operand "2", .operand "3"] noVariables = .ok (3, none) ∧
      calculate asciiLib
        ([.operand "1", .operand "2", .operator "+"] ++ .operator "+" :: [.operand "9"])
        noVariables = .error .indexOutOfRange :=
  ⟨(calculate_no_malformed_error asciiLib noVariables
      [.operand "1", .operand "2", .operand "3"] [3, 2, 1] (by rfl)).2.2.1 3 [2, 1] rfl,
    (calculate_no_malformed_error asciiLib noVariables
      [.operand "1", .operand "2", .operator "+"] [3] (by rfl)).2.2.2.2 "+" [.operand "9"]
      (by decide)⟩

/-! ### Validation -/

/-- The loop of `validBrackets`, started from counts with no more `)` than `(`,
succeeds exactly when no prefix of the rest has more `)` than `(` and the
totals are equal. -/
theorem validBracketsLoop_iff (l : List Char) :
    ∀ (lb rb : Nat), rb ≤ lb →
      (validBracketsLoop l lb rb = true ↔
        (∀ n, rb + (l.take n).count ')' ≤ lb + (l.take n).count '(') ∧
          lb + l.count '(' = rb + l.count ')') := by
  induction l with
  | nil =>
    intro lb rb h
    simp [validBracketsLoop]
    omega
  | cons c rest ih =>
    intro lb rb h
    rw [validBracketsLoop]
    by_cases hc : c = '('
    · subst hc
      rw [if_pos rfl, ih (lb + 1) rb (by omega)]
      have e1 : ∀ m : List Char, ('(' :: m).count '(' = m.count '(' + 1 := by
        intro m; simp
      have e2 : ∀ m : List Char, ('(' :: m).count ')' = m.count ')' := by
        intro m; rw [List.count_cons]; simp
      constructor
      · rintro ⟨h1, h2⟩
        refine ⟨fun n => ?_, ?_⟩
        · cases n with
          | zero => simpa using h
          | succ n =>
            rw [List.take_succ_cons, e1, e2]
            have := h1 n; omega
        · rw [e1, e2]; omega
      · rintro ⟨h1, h2⟩
        refine ⟨fun n => ?_, ?_⟩
        · have := h1 (n + 1)
          rw [List.take_succ_cons, e1, e2] at this
          omega
        · rw [e1, e2] at h2; omega
    · rw [if_neg hc]
      have e1 : ∀ m : List Char, (c :: m).count '(' = m.count '(' := by
        intro m; rw [List.count_cons]; simp [hc]
      by_cases hd : c = ')'
      · subst hd
        have e2 : ∀ m : List Char, (')' :: m).count ')' = m.count ')' + 1 := by
          intro m; simp
        simp only [if_true]
        by_cases hgt : rb + 1 > lb
        · rw [if_pos hgt]
          constructor
          · intro hf; cases hf
          · rintro ⟨h1, _⟩
            have := h1 1
            rw [List.take_succ_cons, e1, e2] at this
            simp at this
            omega
        · rw [if_neg hgt, ih lb (rb + 1) (by omega)]
          constructor
          · rintro ⟨h1, h2⟩
            refine ⟨fun n => ?_, ?_⟩
            · cases n with
              | zero => simpa using h
              | succ n =>
                rw [List.take_succ_cons, e1, e2]
                have := h1 n; omega
            · rw [e1, e2]; omega
          · rintro ⟨h1, h2⟩
            refine ⟨fun n => ?_, ?_⟩
            · have := h1 (n + 1)
              rw [List.take_succ_cons, e1, e2] at this
              omega
            · rw [e1, e2] at h2; omega
      · have e2 : ∀ m : List Char, (c :: m).count ')' = m.count ')' := by
          intro m; rw [List.count_cons]; simp [hd]
        simp only [if_neg hd]
        rw [if_neg (by omega), ih lb rb h]
        constructor
        · rintro ⟨h1, h2⟩
          refine ⟨fun n => ?_, ?_⟩
          · cases n with
            | zero => simpa using h
            | succ n =>
              rw [List.take_succ_cons, e1, e2]
              exact h1 n
          · rw [e1, e2]; exact h2
        · rintro ⟨h1, h2⟩
          refine ⟨fun n => ?_, ?_⟩
          · have := h1 (n + 1)
            rw [List.take_succ_cons, e1, e2] at this
            exact this
          · rw [e1, e2] at h2; exact h2

/-- The loop of `validOperators` succeeds exactly when no character of the rest
repeats the character before it while that is `*`, `/` or `^`. -/
theorem validOperatorsLoop_iff (l : List Char) :
    ∀ lastOperator : Char,
      (validOperatorsLoop l lastOperator = true ↔
        List.Chain (fun x y => ¬ (x = y ∧ (x = '*' ∨ x = '/' ∨ x = '^'))) lastOperator l) := by
  induction l with
  | nil => intro lastOperator; simp [validOperatorsLoop]
  | cons r rest ih =>
    intro lastOperator
    rw [validOperatorsLoop, List.chain_cons]
    by_cases hbad : r = lastOperator ∧ (lastOperator = '*' ∨ lastOperator = '/' ∨ lastOperator = '^')
    · rw [if_pos hbad]
      constructor
      · intro hf; cases hf
      · rintro ⟨h1, _⟩
        exact absurd ⟨hbad.1.symm, hbad.2⟩ h1
    · rw [if_neg hbad, ih r]
      constructor
      · intro h
        exact ⟨fun ⟨h1, h2⟩ => hbad ⟨h1.symm, h2⟩, h⟩
      · rintro ⟨_, h⟩
        exact h

theorem validBrackets_iff (s : String) :
    Infix.validBrackets s = true ↔
      (∀ n, (s.data.take n).count ')' ≤ (s.data.take n).count '(') ∧
        s.data.count '(' = s.data.count ')' := by
  have h := validBracketsLoop_iff s.data 0 0 (Nat.le_refl 0)
  simpa [Infix.validBrackets] using h

theorem validOperators_iff (s : String) :
    Infix.validOperators s = true ↔
      List.Chain' (fun x y => ¬ (x = y ∧ (x = '*' ∨ x = '/' ∨ x = '^'))) s.data := by
  rw [Infix.validOperators, validOperatorsLoop_iff]
  cases s.data with
  | nil => simp
  | cons c cs =>
    rw [List.chain_cons, List.chain'_cons']
    constructor
    · rintro ⟨_, h⟩
      exact List.chain'_cons'.1 h
    · intro h
      refine ⟨?_, List.chain'_cons'.2 h⟩
      rintro ⟨_, h1 | h1 | h1⟩ <;> exact absurd h1 (by decide)

/-- `validate` returns nil exactly when the brackets balance and no `*`, `/` or
`^` is repeated. -/
theorem validate_eq_none_iff (s : String) :
    Infix.validate s = none ↔
      ((∀ n, (s.data.take n).count ')' ≤ (s.data.take n).count '(') ∧
          s.data.count '(' = s.data.count ')') ∧
        List.Chain' (fun x y => ¬ (x = y ∧ (x = '*' ∨ x = '/' ∨ x = '^'))) s.data := by
  rw [← validBrackets_iff, ← validOperators_iff]
  unfold Infix.validate
  cases Infix.validBrackets s <;> cases Infix.validOperators s <;> simp

/-- A text without parentheses and without `*`, `/`, `^` is accepted. -/
theorem validate_of_plain (s : String)
    (h : ∀ c ∈ s.data, c ≠ '(' ∧ c ≠ ')' ∧ c ≠ '*' ∧ c ≠ '/' ∧ c ≠ '^') :
    Infix.validate s = none := by
  rw [validate_eq_none_iff]
  have hno : ∀ (m : Nat) (p : Char), (p = '(' ∨ p = ')') → (s.data.take m).count p = 0 := by
    intro m p hp
    rw [List.count_eq_zero]
    intro hmem
    obtain ⟨h1, h2, _⟩ := h p (List.mem_of_mem_take hmem)
    rcases hp with hp | hp
    · exact h1 hp
    · exact h2 hp
  refine ⟨⟨fun n => ?_, ?_⟩, ?_⟩
  · rw [hno n ')' (Or.inr rfl)]; exact Nat.zero_le _
  · have h1 := hno s.data.length '(' (Or.inl rfl)
    have h2 := hno s.data.length ')' (Or.inr rfl)
    rw [List.take_length] at h1 h2
    rw [h1, h2]
  · apply List.Pairwise.chain'
    apply List.pairwise_of_forall_mem_list
    rintro a ha b _ ⟨_, h1⟩
    obtain ⟨_, _, h3, h4, h5⟩ := h a ha
    rcases h1 with h1 | h1 | h1
    · exact h3 h1
    · exact h4 h1
    · exact h5 h1

/-- C7: `validate` returns nil exactly when no prefix of the text has more `)`
than `(`, the text has as many `(` as `)`, and no two adjacent characters are
the same one of `*`, `/`, `^`; otherwise it returns "Invalid Expression". A
text of `+` and `-` characters alone is accepted, and `3 + ( 4` is rejected. -/
theorem validate_iff (s : String) :
    (Infix.validate s = none ↔
      ((∀ n, (s.data.take n).count ')' ≤ (s.data.take n).count '(') ∧
          s.data.count '(' = s.data.count ')') ∧
        List.Chain' (fun x y => ¬ (x = y ∧ (x = '*' ∨ x = '/' ∨ x = '^'))) s.data) ∧
    (Infix.validate s ≠ none → Infix.validate s = some "Invalid Expression") ∧
    ((∀ c ∈ s.data, c = '+' ∨ c = '-') → Infix.validate s = none) ∧
    Infix.validate "3 + ( 4" = some "Invalid Expression" ∧
    Infix.validate "2 ** 3" = some "Invalid Expression" ∧
    Infix.validate "5 --- 3" = none := by
  refine ⟨validate_eq_none_iff s, ?_, ?_, by rfl, by rfl, by rfl⟩
  · intro h
    unfold Infix.validate at h ⊢
    split
    · rfl
    · rename_i hc
      rw [if_neg hc] at h
      exact absurd rfl h
  · intro hsign
    apply validate_of_plain
    intro c hc
    rcases hsign c hc with h | h <;> subst h <;> decide

theorem validate_iff_witness : Infix.validate "+-+" = none :=
  (validate_iff "+-+").2.2.1 (by decide)

/-! ### Conversion of fully parenthesised expressions -/

theorem isOperator_open : Operator.isOperator "(" = true := by decide

theorem isOperator_close : Operator.isOperator ")" = true := by decide

theorem convertLoop_append (xs ys : List String) (st : Stack Operator × Postfix) :
    convertLoop (xs ++ ys) st =
      match convertLoop xs st with
      | .error a => .error a
      | .ok st1 => convertLoop ys st1 := by
  induction xs generalizing st with
  | nil => simp [convertLoop]
  | cons x xs ih =>
    simp only [List.cons_append, convertLoop]
    cases convertElement st x with
    | error a => rfl
    | ok st1 => exact ih st1

/-- An open parenthesis is pushed on the operator stack, whatever the stack. -/
theorem convertElement_open (ops : Stack Operator) (p : Postfix) :
    convertElement (ops, p) "(" = .ok ("(" :: ops, p) := by
  unfold convertElement
  simp only [isOperator_open, if_true, Stack.add]
  split <;> rfl

/-- The loop of `convert` over a well-formed fully parenthesised expression
leaves the operator stack as it found it and emits the postfix form. -/
theorem convertLoop_paren (E : Paren) (hwf : E.wellFormed) :
    ∀ (ops : Stack Operator) (p : Postfix),
      convertLoop E.tokens (ops, p) = .ok (ops, p ++ E.toPostfix) := by
  induction E with
  | operand s =>
    intro ops p
    have hs : Operator.isOperator s = false := hwf
    simp [Paren.tokens, convertLoop, convertElement, hs, Postfix.append, Paren.toPostfix]
  | binary left op right ihl ihr =>
    intro ops p
    obtain ⟨hl, ⟨hop, hno, hnc⟩, hr⟩ := hwf
    have hstep_op : convertElement ("(" :: ops, p ++ left.toPostfix) op =
        .ok (op :: "(" :: ops, p ++ left.toPostfix) := by
      simp [convertElement, hop, Stack.last, Stack.add]
    have hstep_close : convertElement (op :: "(" :: ops, p ++ left.toPostfix ++ right.toPostfix) ")" =
        .ok (ops, p ++ left.toPostfix ++ right.toPostfix ++ [.operator op]) := by
      simp [convertElement, isOperator_close, Stack.last, Stack.add, hno, popWhile,
        Postfix.append, hnc, Stack.pop]
    rw [Paren.tokens, convertLoop, convertElement_open]
    simp only
    rw [convertLoop_append, ihl hl]
    simp only
    rw [convertLoop, hstep_op]
    simp only
    rw [convertLoop_append, ihr hr]
    simp only
    rw [convertLoop, hstep_close]
    simp [convertLoop, Paren.toPostfix]

theorem toPostfix_length (E : Paren) : E.toPostfix.length = E.operands + E.operators := by
  induction E with
  | operand s => rfl
  | binary left op right ihl ihr =>
    simp [Paren.toPostfix, Paren.operands, Paren.operators, ihl, ihr]; omega

theorem toPostfix_no_paren (E : Paren) (hwf : E.wellFormed) :
    ∀ e ∈ E.toPostfix, e ≠ .operator "(" ∧ e ≠ .operator ")" ∧ e ≠ .operand "(" ∧
      e ≠ .operand ")" := by
  induction E with
  | operand s =>
    intro e he
    have hs : Operator.isOperator s = false := hwf
    simp only [Paren.toPostfix, List.mem_singleton] at he
    subst he
    refine ⟨by simp, by simp, ?_, ?_⟩
    · intro h; cases h; rw [isOperator_open] at hs; cases hs
    · intro h; cases h; rw [isOperator_close] at hs; cases hs
  | binary left op right ihl ihr =>
    intro e he
    obtain ⟨hl, ⟨_, hno, hnc⟩, hr⟩ := hwf
    simp only [Paren.toPostfix, List.mem_append, List.mem_singleton] at he
    rcases he with (he | he) | he
    · exact ihl hl e he
    · exact ihr hr e he
    · subst he
      refine ⟨?_, ?_, by simp, by simp⟩
      · intro h; cases h; exact hno rfl
      · intro h; cases h; exact hnc rfl

/-- C6: for every well-formed fully parenthesised expression, `convert` returns
its postfix form: a sequence with no `(` or `)` element whose length is the
number of operands plus the number of operators of the input. -/
theorem convert_fully_parenthesised (E : Paren) (hwf : E.wellFormed) (inf : Infix)
    (hf : fields inf = E.tokens) :
    ∃ out : Postfix, Postfix.convert [] inf = .ok out ∧ out = E.toPostfix ∧
      out.length = E.operands + E.operators ∧
      ∀ e ∈ out, e ≠ .operator "(" ∧ e ≠ .operator ")" ∧ e ≠ .operand "(" ∧ e ≠ .operand ")" := by
  refine ⟨E.toPostfix, ?_, rfl, toPostfix_length E, toPostfix_no_paren E hwf⟩
  unfold Postfix.convert
  rw [hf, convertLoop_paren E hwf [] []]
  simp [popWhile]

theorem convert_fully_parenthesised_witness :
    ∃ out : Postfix, Postfix.convert [] "( ( 1 + 2 ) * x )" = .ok out ∧
      out = [.operand "1", .operand "2", .operator "+", .operand "x", .operator "*"] ∧
      out.length = 3 + 2 ∧
      ∀ e ∈ out, e ≠ .operator "(" ∧ e ≠ .operator ")" ∧ e ≠ .operand "(" ∧ e ≠ .operand ")" :=
  convert_fully_parenthesised
    (.binary (.binary (.operand "1") "+" (.operand "2")) "*" (.operand "x"))
    (by decide) "( ( 1 + 2 ) * x )" (by rfl)

/-! ### Lines of two literals and signs -/

theorem fieldsLoop_word (w rest cur : List Char) (hw : ∀ c ∈ w, isSpace c = false) :
    fieldsLoop (w ++ rest) cur = fieldsLoop rest (w.reverse ++ cur) := by
  induction w generalizing cur with
  | nil => rfl
  | cons c w ih =>
    have hc : isSpace c = false := hw c (by simp)
    rw [List.cons_append, fieldsLoop]
    simp only [hc, Bool.false_eq_true, if_false]
    rw [ih (c :: cur) (fun d hd => hw d (by simp [hd]))]
    simp

/-- A word followed by a space is a field. -/
theorem fieldsLoop_word_space (w rest : List Char) (hw : ∀ c ∈ w, isSpace c = false)
    (hne : w ≠ []) :
    fieldsLoop (w ++ ' ' :: rest) [] = String.mk w :: fieldsLoop rest [] := by
  rw [fieldsLoop_word w _ [] hw, fieldsLoop]
  have hsp : isSpace ' ' = true := by decide
  simp [hsp, hne]

/-- A word at the end of the text is a field. -/
theorem fieldsLoop_word_end (w : List Char) (hw : ∀ c ∈ w, isSpace c = false) (hne : w ≠ []) :
    fieldsLoop w [] = [String.mk w] := by
  have h := fieldsLoop_word w [] [] hw
  rw [List.append_nil] at h
  rw [h, fieldsLoop]
  simp [hne]

theorem dropWhile_of_head (p : Char → Bool) (l : List Char)
    (h : ∀ c, l.head? = some c → p c = false) : l.dropWhile p = l := by
  cases l with
  | nil => rfl
  | cons c cs => simp [List.dropWhile, h c rfl]

/-- A text that neither starts nor ends with a space is left alone by `TrimSpace`. -/
theorem trimSpace_of_ends (s : String) (h1 : ∀ c, s.data.head? = some c → isSpace c = false)
    (h2 : ∀ c, s.data.getLast? = some c → isSpace c = false) : trimSpace s = s := by
  unfold trimSpace
  rw [dropWhile_of_head isSpace s.data h1, dropWhile_of_head isSpace s.data.reverse]
  · simp
  · intro c hc
    rw [List.head?_reverse] at hc
    exact h2 c hc

theorem replaceChar_of_not_mem (s : String) (old : Char) (new : String) (h : old ∉ s.data) :
    replaceChar s old new = s := by
  unfold replaceChar
  have : ∀ l : List Char, old ∉ l → (l.flatMap fun c => if c = old then new.data else [c]) = l := by
    intro l hl
    induction l with
    | nil => rfl
    | cons c cs ih =>
      have hc : c ≠ old := fun e => hl (by simp [e])
      rw [List.flatMap_cons, if_neg hc, ih (fun e => hl (by simp [e]))]
      rfl
  rw [this s.data h]

/-- A line in spaced form without parentheses that neither starts nor ends with a
space is left alone by `addSpaces`. -/
theorem addSpaces_of_spaced (L : Lib) (s : String)
    (h1 : ∀ c, s.data.head? = some c → isSpace c = false)
    (h2 : ∀ c, s.data.getLast? = some c → isSpace c = false)
    (hsp : ' ' ∈ s.data) (ho : '(' ∉ s.data) (hc : ')' ∉ s.data) :
    Infix.addSpaces L s = s := by
  unfold Infix.addSpaces
  rw [trimSpace_of_ends s h1 h2]
  have hform : Infix.isSpaceLessForm L s = false := by
    unfold Infix.isSpaceLessForm containsChar
    split
    · rfl
    · simp [hsp]
  simp only [hform, Bool.not_false, if_true]
  rw [replaceChar_of_not_mem s '(' "( " ho, replaceChar_of_not_mem s ')' " )" hc]

theorem literalChar_plain (c : Char) (h : literalChar c) :
    c ≠ '(' ∧ c ≠ ')' ∧ c ≠ '*' ∧ c ≠ '/' ∧ c ≠ '^' := by
  have := literalChar_toNat c h
  refine ⟨?_, ?_, ?_, ?_, ?_⟩ <;> apply toNat_ne_of_ne
  · show c.toNat ≠ 40; omega
  · show c.toNat ≠ 41; omega
  · show c.toNat ≠ 42; omega
  · show c.toNat ≠ 47; omega
  · show c.toNat ≠ 94; omega

/-- A line made of a literal, blanks and minus signs holding a blank, and a
literal is left alone by `addSpaces` and accepted by `validate`. -/
theorem literal_line (L : Lib) (sa sb mid : String) (a b : Int)
    (ha : atoi sa = some a) (hb : atoi sb = some b)
    (hmid : ∀ c ∈ mid.data, c = ' ' ∨ c = '-') (hsp : ' ' ∈ mid.data) :
    Infix.addSpaces L (sa ++ mid ++ sb) = sa ++ mid ++ sb ∧
      Infix.validate (sa ++ mid ++ sb) = none := by
  obtain ⟨hane, hac, _, _, _⟩ := atoi_some L sa a ha
  obtain ⟨hbne, hbc, _, _, _⟩ := atoi_some L sb b hb
  have hdata : (sa ++ mid ++ sb).data = sa.data ++ (mid.data ++ sb.data) := by
    simp [String.data_append]
  have hplain : ∀ c ∈ (sa ++ mid ++ sb).data, c ≠ '(' ∧ c ≠ ')' ∧ c ≠ '*' ∧ c ≠ '/' ∧ c ≠ '^' := by
    intro c hc
    rw [hdata] at hc
    rcases List.mem_append.1 hc with hc | hc
    · exact literalChar_plain c (hac c hc)
    · rcases List.mem_append.1 hc with hc | hc
      · rcases hmid c hc with h | h <;> subst h <;> decide
      · exact literalChar_plain c (hbc c hc)
  constructor
  · apply addSpaces_of_spaced
    · intro c hc
      rw [hdata] at hc
      obtain ⟨x, xs, hx⟩ := List.exists_cons_of_ne_nil hane
      rw [hx] at hc
      simp at hc
      subst hc
      exact literalChar_not_space x (hac x (by simp [hx]))
    · intro c hc
      rw [hdata, ← List.append_assoc, List.getLast?_append_of_ne_nil _ hbne] at hc
      exact literalChar_not_space c (hbc c (List.mem_of_getLast?_eq_some hc))
    · rw [hdata]; simp [hsp]
    · intro h; exact (hplain _ h).1 rfl
    · intro h; exact (hplain _ h).2.1 rfl
  · exact validate_of_plain _ hplain

theorem fields_two_minus (L : Lib) (sa sb : String) (a b : Int)
    (ha : atoi sa = some a) (hb : atoi sb = some b) :
    fields (sa ++ " -- " ++ sb) = [sa, "--", sb] ∧
      fields (sa ++ " - - " ++ sb) = [sa, "-", "-", sb] := by
  obtain ⟨hane, hac, _, _, _⟩ := atoi_some L sa a ha
  obtain ⟨hbne, hbc, _, _, _⟩ := atoi_some L sb b hb
  have hwa : ∀ c ∈ sa.data, isSpace c = false := fun c hc => literalChar_not_space c (hac c hc)
  have hwb : ∀ c ∈ sb.data, isSpace c = false := fun c hc => literalChar_not_space c (hbc c hc)
  have hm : ∀ c ∈ ['-'], isSpace c = false := by decide
  have hmm : ∀ c ∈ ['-', '-'], isSpace c = false := by decide
  constructor
  · have hdata : (sa ++ " -- " ++ sb).data = sa.data ++ ' ' :: (['-', '-'] ++ ' ' :: sb.data) := by
      simp [String.data_append]
    rw [fields, hdata, fieldsLoop_word_space _ _ hwa hane,
      fieldsLoop_word_space _ _ hmm (by simp), fieldsLoop_word_end _ hwb hbne]
  · have hdata : (sa ++ " - - " ++ sb).data =
        sa.data ++ ' ' :: (['-'] ++ ' ' :: (['-'] ++ ' ' :: sb.data)) := by
      simp [String.data_append]
    rw [fields, hdata, fieldsLoop_word_space _ _ hwa hane,
      fieldsLoop_word_space _ _ hm (by simp), fieldsLoop_word_space _ _ hm (by simp),
      fieldsLoop_word_end _ hwb hbne]

/-- C3, at `5 - - 3`: the two signs are two separate `-` tokens, the postfix
sequence is `5 - 3 -`, and the first `-` finds a single value on the evaluation
stack, so no sum is returned. -/
theorem spaced_minus_signs_not_a_run :
    fields (Infix.addSpaces asciiLib "5 - - 3") = ["5", "-", "-", "3"] ∧
      Postfix.convert [] (Infix.addSpaces asciiLib "5 - - 3") =
        .ok [.operand "5", .operator "-", .operand "3", .operator "-"] ∧
      pipeline asciiLib noVariables "5 - - 3" = .error .indexOutOfRange ∧
      pipeline asciiLib noVariables "5 - - 3" ≠ .ok (8, none) := by
  refine ⟨by rfl, by rfl, by rfl, ?_⟩
  have h : pipeline asciiLib noVariables "5 - - 3" = .error .indexOutOfRange := by rfl
  rw [h]
  intro hc
  cases hc

/-- C3, amended: for all integer literals of values `a` and `b`, the pipeline on
the line `a -- b`, where the two minus signs are adjacent and form the sign run
`--`, resolves the run to `+` and returns Go's `a + b` without error (the exact
sum whenever it is an `int`). In `a - - b` the space separates the signs: they
are read as two `-` tokens and converted as two operators, not as a sign run. -/
theorem pipeline_adjacent_minus_signs (L : Lib) (vars : Variables) (sa sb : String) (a b : Int)
    (ha : atoi sa = some a) (hb : atoi sb = some b) :
    fields (Infix.addSpaces L (sa ++ " -- " ++ sb)) = [sa, "--", sb] ∧
    Operator.convertAdmissibleOperator "--" = "+" ∧
    pipeline L vars (sa ++ " -- " ++ sb) = .ok (wrapInt (a + b), none) ∧
    (minInt ≤ a + b → a + b ≤ maxInt →
      pipeline L vars (sa ++ " -- " ++ sb) = .ok (a + b, none)) ∧
    fields (Infix.addSpaces L (sa ++ " - - " ++ sb)) = [sa, "-", "-", sb] ∧
    Postfix.convert [] (Infix.addSpaces L (sa ++ " - - " ++ sb)) =
      .ok [.operand sa, .operator "-", .operand sb, .operator "-"] := by
  obtain ⟨_, _, _, hopa, _⟩ := atoi_some L sa a ha
  obtain ⟨_, _, _, hopb, _⟩ := atoi_some L sb b hb
  obtain ⟨hadd1, hval1⟩ := literal_line L sa sb " -- " a b ha hb (by decide) (by decide)
  obtain ⟨hadd2, _⟩ := literal_line L sa sb " - - " a b ha hb (by decide) (by decide)
  obtain ⟨hf1, hf2⟩ := fields_two_minus L sa sb a b ha hb
  have hrun : Operator.isOperator "--" = true := by decide
  have hminus : Operator.isOperator "-" = true := by decide
  have hres : Operator.convertAdmissibleOperator "--" = "+" := by decide
  have hprio : Operator.getPriority "-" = 1 := by decide
  have hconv : Postfix.convert [] (sa ++ " -- " ++ sb) =
      .ok [.operand sa, .operand sb, .operator "--"] := by
    unfold Postfix.convert
    rw [hf1]
    simp [convertLoop, convertElement, hopa, hopb, hrun, Postfix.append, Stack.add, popWhile]
  have hpipe : pipeline L vars (sa ++ " -- " ++ sb) = .ok (wrapInt (a + b), none) := by
    unfold pipeline
    simp only [hadd1, hval1, hconv]
    rw [calculate, calculateLoop_literal L vars _ _ ha, calculateLoop_literal L vars _ _ hb]
    simp [calculateLoop, hres, Stack.pop, Stack.add, Stack.last]
  refine ⟨by rw [hadd1, hf1], hres, hpipe, ?_, by rw [hadd2, hf2], ?_⟩
  · intro h1 h2
    rw [hpipe, wrapInt_of_inRange _ h1 h2]
  · rw [hadd2]
    unfold Postfix.convert
    rw [hf2]
    simp [convertLoop, convertElement, hopa, hopb, hminus, hprio, Postfix.append, Stack.add,
      Stack.last, popWhile]

theorem pipeline_adjacent_minus_signs_witness :
    pipeline asciiLib noVariables ("5" ++ " -- " ++ "3") = .ok (5 + 3, none) :=
  (pipeline_adjacent_minus_signs asciiLib noVariables "5" "3" 5 3 (by rfl) (by rfl)).2.2.2.1
    (by decide) (by decide)

/-! ### Equal priorities, parentheses in the spaced form, safety of the converter -/

/-- C17: for operands `a`, `b`, `c` and single-character operators `op1`, `op2`
of equal priority (both among `+ -`, both among `* /`, or both `^`), `convert`
on the tokens `a op1 b op2 c` returns `a b op1 c op2`: equal priorities group
left to right, also for `^`. -/
theorem convert_equal_priority (a b c op1 op2 : String) (inf : Infix)
    (ha : Operator.isOperator a = false) (hb : Operator.isOperator b = false)
    (hc : Operator.isOperator c = false)
    (h1 : op1 = "+" ∨ op1 = "-" ∨ op1 = "*" ∨ op1 = "/" ∨ op1 = "^")
    (h2 : op2 = "+" ∨ op2 = "-" ∨ op2 = "*" ∨ op2 = "/" ∨ op2 = "^")
    (hp : Operator.getPriority op1 = Operator.getPriority op2)
    (hf : fields inf = [a, op1, b, op2, c]) :
    Postfix.convert [] inf =
      .ok [.operand a, .operand b, .operator op1, .operand c, .operator op2] := by
  unfold Postfix.convert
  rw [hf]
  rcases h1 with rfl | rfl | rfl | rfl | rfl <;> rcases h2 with rfl | rfl | rfl | rfl | rfl <;>
    first
      | (exfalso; revert hp; decide)
      | simp [convertLoop, convertElement, ha, hb, hc, Postfix.append, Stack.add, Stack.last,
          popWhile, show Operator.isOperator "+" = true by decide,
          show Operator.isOperator "-" = true by decide,
          show Operator.isOperator "*" = true by decide,
          show Operator.isOperator "/" = true by decide,
          show Operator.isOperator "^" = true by decide,
          show Operator.getPriority "+" = 1 by decide,
          show Operator.getPriority "-" = 1 by decide,
          show Operator.getPriority "*" = 2 by decide,
          show Operator.getPriority "/" = 2 by decide,
          show Operator.getPriority "^" = 3 by decide]

theorem convert_equal_priority_witness :
    Postfix.convert [] "2 ^ 3 ^ 2" =
      .ok [.operand "2", .operand "3", .operator "^", .operand "2", .operator "^"] :=
  convert_equal_priority "2" "3" "2" "^" "^" "2 ^ 3 ^ 2" (by decide) (by decide) (by decide)
    (by decide) (by decide) (by decide) (by rfl)

/-- C16: in the spaced form `addSpaces` puts a space after each `(` and before
each `)` only: `(3 + 4)* 2` becomes `( 3 + 4 )* 2`, whose token `)*` is read as an
operand, so the line fails with "Invalid identifier"; `2 *(3 + 4)` becomes
`2 *( 3 + 4 )`, whose `(` is never pushed, so `convert` pops from an empty
stack at the `)`. -/
theorem addSpaces_one_sided :
    Infix.addSpaces asciiLib "(3 + 4)* 2" = "( 3 + 4 )* 2" ∧
    fields (Infix.addSpaces asciiLib "(3 + 4)* 2") = ["(", "3", "+", "4", ")*", "2"] ∧
    pipeline asciiLib noVariables "(3 + 4)* 2" = .ok (0, some "Invalid identifier") ∧
    Infix.addSpaces asciiLib "2 *(3 + 4)" = "2 *( 3 + 4 )" ∧
    fields (Infix.addSpaces asciiLib "2 *(3 + 4)") = ["2", "*(", "3", "+", "4", ")"] ∧
    pipeline asciiLib noVariables "2 *(3 + 4)" = .error .indexOutOfRange ∧
    pipeline asciiLib noVariables "(3 + 4) * 2" = .ok (14, none) :=
  ⟨by rfl, by rfl, by rfl, by rfl, by rfl, by rfl, by rfl⟩

/-- C18: the line `( 1 + 2 -- 3 )` is accepted by `validate`, yet `convert` pops
from an empty operator stack: the sign run `--` has priority 0, so the loop that
pops for it removes the `(` as well, and the `)` finds no `(`. -/
theorem convert_pops_empty_stack_after_validate :
    Infix.addSpaces asciiLib "( 1 + 2 -- 3 )" = "(  1 + 2 -- 3  )" ∧
    Infix.validate (Infix.addSpaces asciiLib "( 1 + 2 -- 3 )") = none ∧
    convertLoop ["(", "1", "+", "2", "--"] ([], []) =
      .ok (["--"], [.operand "1", .operand "2", .operator "+"]) ∧
    Postfix.convert [] (Infix.addSpaces asciiLib "( 1 + 2 -- 3 )") = .error .indexOutOfRange ∧
    pipeline asciiLib noVariables "( 1 + 2 -- 3 )" = .error .indexOutOfRange ∧
    pipeline asciiLib noVariables "( 1 + 2 + 3 )" = .ok (6, none) :=
  ⟨by rfl, by rfl, by rfl, by rfl, by rfl, by rfl⟩

/-! ### Identifiers -/

theorem lt_of_utf8Size_eq_one (c : Char) (h : c.utf8Size = 1) : c.toNat < 128 := by
  by_contra hge
  have h1 : ¬ c.val ≤ 127 := by
    rw [UInt32.le_def]
    show ¬ c.val.toNat ≤ 127
    have : c.toNat = c.val.toNat := rfl
    omega
  simp only [Char.utf8Size] at h
  split at h
  · rename_i h2; exact h1 h2
  · split at h
    · cases h
    · split at h <;> cases h

theorem byteLen_eq_zero (cs : List Char) : byteLen cs = 0 ↔ cs = [] := by
  cases cs with
  | nil => simp [byteLen]
  | cons c cs =>
    rw [byteLen_cons]
    have := Char.utf8Size_pos c
    constructor
    · intro h; omega
    · intro h; cases h

/-- What `isValidIdentifier` accepts: a non-empty text whose characters are
letters of one byte each. -/
theorem isValidIdentifier_iff (L : Lib) (s : String) :
    Variables.isValidIdentifier L s = true ↔
      s.data ≠ [] ∧ ∀ c ∈ s.data, L.unicodeIsLetter c = true ∧ c.utf8Size = 1 := by
  unfold Variables.isValidIdentifier len
  by_cases h0 : byteLen s.data = 0
  · rw [if_pos h0]
    have := (byteLen_eq_zero s.data).1 h0
    simp [this]
  · rw [if_neg h0]
    have hne : s.data ≠ [] := fun h => h0 ((byteLen_eq_zero s.data).2 h)
    simp only [decide_eq_true_eq]
    constructor
    · intro h
      exact ⟨hne, (byteLen_eq_countP L.unicodeIsLetter s.data).1 h.symm⟩
    · rintro ⟨_, h⟩
      exact ((byteLen_eq_countP L.unicodeIsLetter s.data).2 h).symm

/-- On a text of ASCII characters `isValidIdentifier` holds exactly when the text
is not empty and all its characters are letters. -/
theorem isValidIdentifier_ascii (L : Lib) (s : String) (hascii : ∀ c ∈ s.data, c.toNat < 128) :
    Variables.isValidIdentifier L s = true ↔
      s.data ≠ [] ∧ ∀ c ∈ s.data, L.unicodeIsLetter c = true := by
  rw [isValidIdentifier_iff]
  constructor
  · rintro ⟨h1, h2⟩
    exact ⟨h1, fun c hc => (h2 c hc).1⟩
  · rintro ⟨h1, h2⟩
    exact ⟨h1, fun c hc => ⟨h2 c hc, utf8Size_of_lt c (hascii c hc)⟩⟩

/-- A text with a character that is not a letter is not a valid identifier. -/
theorem isValidIdentifier_of_not_letter (L : Lib) (s : String) (c : Char) (hc : c ∈ s.data)
    (hl : L.unicodeIsLetter c = false) : Variables.isValidIdentifier L s = false := by
  cases h : Variables.isValidIdentifier L s with
  | false => rfl
  | true =>
    have := ((isValidIdentifier_iff L s).1 h).2 c hc
    rw [hl] at this
    cases this.1

theorem alpha_not_digit_sign (c : Char) (h : c.isAlpha = true) :
    c.isDigit = false ∧ c ≠ '+' ∧ c ≠ '-' := by
  have hn : (65 ≤ c.toNat ∧ c.toNat ≤ 90) ∨ (97 ≤ c.toNat ∧ c.toNat ≤ 122) := by
    have e : c.toNat = c.val.toNat := rfl
    simp only [Char.isAlpha, Char.isUpper, Char.isLower, Bool.or_eq_true, Bool.and_eq_true,
      decide_eq_true_eq, ge_iff_le, UInt32.le_def] at h
    rcases h with ⟨h1, h2⟩ | ⟨h1, h2⟩
    · left; rw [e]; exact ⟨h1, h2⟩
    · right; rw [e]; exact ⟨h1, h2⟩
  refine ⟨?_, ?_, ?_⟩
  · cases hd : c.isDigit with
    | false => rfl
    | true => have := (isDigit_iff c).1 hd; omega
  · apply toNat_ne_of_ne; show c.toNat ≠ 43; omega
  · apply toNat_ne_of_ne; show c.toNat ≠ 45; omega

/-- A valid identifier is not a number. -/
theorem isNumber_of_isValidIdentifier (L : Lib) (s : String)
    (h : Variables.isValidIdentifier L s = true) : isNumber L s = false := by
  obtain ⟨hne, hall⟩ := (isValidIdentifier_iff L s).1 h
  obtain ⟨c, cs, hs⟩ := List.exists_cons_of_ne_nil hne
  have hc := hall c (by simp [hs])
  have hlt := lt_of_utf8Size_eq_one c hc.2
  have halpha : c.isAlpha = true := by rw [← L.letter_ascii c hlt]; exact hc.1
  obtain ⟨hd, hp, hm⟩ := alpha_not_digit_sign c halpha
  have hnum : L.unicodeIsNumber c = false := by rw [L.number_ascii c hlt]; exact hd
  unfold isNumber
  rw [hs]
  have hsign : ¬ (c = '+' ∨ c = '-') := fun h => h.elim hp hm
  simp only [if_neg hsign, List.countP_cons, hnum]
  have hle := countP_le_byteLen L.unicodeIsNumber cs
  have hpos := Char.utf8Size_pos c
  rw [byteLen_cons]
  simp
  intro heq
  omega

/-- C19: `isValidIdentifier` compares the number of letters with the length in
bytes, so a letter outside ASCII is never accepted: with U+00E9 a letter, the
one-letter text of it is two bytes long and is rejected, and so is every
one-letter text of a letter outside ASCII. -/
theorem isValidIdentifier_rejects_letter_outside_ascii :
    accentLib.unicodeIsLetter 'é' = true ∧
    ("é".data ≠ [] ∧ ∀ c ∈ "é".data, accentLib.unicodeIsLetter c = true) ∧
    len "é" = 2 ∧
    Variables.isValidIdentifier accentLib "é" = false ∧
    (Variables.setVariable accentLib noVariables ["é", "5"]).toOption.map (fun r => r.2) =
      some (some "Invalid identifier") ∧
    (∀ (L : Lib) (c : Char), L.unicodeIsLetter c = true → 128 ≤ c.toNat →
      Variables.isValidIdentifier L (String.singleton c) = false) := by
  refine ⟨by decide, by decide, by decide, by decide, by rfl, ?_⟩
  intro L c _ hge
  cases h : Variables.isValidIdentifier L (String.singleton c) with
  | false => rfl
  | true =>
    have h1 := ((isValidIdentifier_iff L _).1 h).2 c (by simp [String.singleton])
    have := lt_of_utf8Size_eq_one c h1.2
    omega

/-! ### Assignment -/

/-- The body of `setVariable` on an assignment of two parts. -/
theorem setVariable_pair (L : Lib) (vars : Variables) (first second : String)
    (tail : List String) :
    Variables.setVariable L vars (first :: second :: tail) =
      if Variables.isValidIdentifier L (trimSpace first) = false then
        .ok (vars, some "Invalid identifier")
      else if Variables.isValidIdentifier L (trimSpace second) = false ∧
          isNumber L (trimSpace second) = false then
        .ok (vars, some "Invalid assignment")
      else if (Variables.getVariable vars (trimSpace second)).2 = true ∧
          isNumber L (trimSpace second) = false then
        .ok (Variables.insert vars (trimSpace first)
          (Variables.getVariable vars (trimSpace second)).1, none)
      else if isNumber L (trimSpace second) = true then
        match getNumber (trimSpace second) with
        | .error a => .error a
        | .ok value => .ok (Variables.insert vars (trimSpace first) value, none)
      else .ok (vars, some "Unknown variable") := by
  simp only [Variables.setVariable]
  cases Variables.isValidIdentifier L (trimSpace first) <;>
    cases Variables.isValidIdentifier L (trimSpace second) <;>
    cases isNumber L (trimSpace second) <;>
    cases (Variables.getVariable vars (trimSpace second)).2 <;> simp

/-- C14: when `setVariable` returns an error, the map of variables after the
call is the map before it; the error is one of "Invalid identifier",
"Invalid assignment" and "Unknown variable". -/
theorem setVariable_error_atomic (L : Lib) (vars vars1 : Variables) (assignment : List String)
    (msg : String) (h : Variables.setVariable L vars assignment = .ok (vars1, some msg)) :
    vars1 = vars ∧
      (msg = "Invalid identifier" ∨ msg = "Invalid assignment" ∨ msg = "Unknown variable") := by
  cases assignment with
  | nil => simp [Variables.setVariable] at h
  | cons first rest =>
    cases rest with
    | nil =>
      simp only [Variables.setVariable] at h
      split at h
      · cases h; exact ⟨rfl, Or.inl rfl⟩
      · cases h
    | cons second tail =>
      rw [setVariable_pair] at h
      split at h
      · cases h; exact ⟨rfl, Or.inl rfl⟩
      · split at h
        · cases h; exact ⟨rfl, Or.inr (Or.inl rfl)⟩
        · split at h
          · cases h
          · split at h
            · split at h
              · cases h
              · cases h
            · cases h; exact ⟨rfl, Or.inr (Or.inr rfl)⟩

theorem setVariable_error_atomic_witness :
    Variables.setVariable asciiLib noVariables ["x", "y"] =
        .ok (noVariables, some "Unknown variable") ∧
      noVariables = noVariables ∧
      ("Unknown variable" = "Invalid identifier" ∨ "Unknown variable" = "Invalid assignment" ∨
        "Unknown variable" = "Unknown variable") :=
  ⟨by rfl,
    setVariable_error_atomic asciiLib noVariables noVariables ["x", "y"] "Unknown variable"
      (by rfl)⟩

/-- A successful assignment of a literal binds the name to the literal's value. -/
theorem setVariable_literal (L : Lib) (vars : Variables) (name raw : String) (v : Int)
    (hname : Variables.isValidIdentifier L (trimSpace name) = true)
    (hlit : atoi (trimSpace raw) = some v) :
    Variables.setVariable L vars [name, raw] =
      .ok (Variables.insert vars (trimSpace name) v, none) := by
  obtain ⟨_, _, hnum, _, hget⟩ := atoi_some L _ v hlit
  rw [setVariable_pair]
  simp [hname, hnum, hget]

/-- A successful assignment of a bound identifier binds the name to its value. -/
theorem setVariable_identifier (L : Lib) (vars : Variables) (name raw : String) (v : Int)
    (hname : Variables.isValidIdentifier L (trimSpace name) = true)
    (hraw : Variables.isValidIdentifier L (trimSpace raw) = true)
    (hbound : vars (trimSpace raw) = some v) :
    Variables.setVariable L vars [name, raw] =
      .ok (Variables.insert vars (trimSpace name) v, none) := by
  have hnum := isNumber_of_isValidIdentifier L _ hraw
  rw [setVariable_pair]
  simp [hname, hraw, hnum, Variables.getVariable, hbound]

/-- A successful assignment has a valid name and changes the map at the name only. -/
theorem setVariable_success (L : Lib) (vars vars1 : Variables) (name raw : String)
    (h : Variables.setVariable L vars [name, raw] = .ok (vars1, none)) :
    Variables.isValidIdentifier L (trimSpace name) = true ∧
      ∃ value : Int, vars1 = Variables.insert vars (trimSpace name) value := by
  rw [setVariable_pair] at h
  split at h
  · cases h
  · rename_i hname
    refine ⟨by simpa using hname, ?_⟩
    split at h
    · cases h
    · split at h
      · cases h; exact ⟨_, rfl⟩
      · split at h
        · split at h
          · cases h
          · cases h; exact ⟨_, rfl⟩
        · cases h

theorem insert_same (vars : Variables) (name : String) (value : Int) :
    Variables.getVariable (Variables.insert vars name value) name = (value, true) := by
  simp [Variables.getVariable, Variables.insert]

theorem insert_other (vars : Variables) (name k : String) (value : Int) (h : k ≠ name) :
    Variables.insert vars name value k = vars k := by
  simp [Variables.insert, h]

/-- C13: after a successful `setVariable(x, literal v)`, `getVariable(x)` returns
`(v, true)` and every other binding is unchanged; `setVariable(y, x)` then
succeeds for every valid name `y`, and after it `getVariable(y)` returns `v`,
also after `x`, a name other than `y`, is assigned again to any value. -/
theorem setVariable_round_trip (L : Lib) (vars vars1 : Variables) (x sv : String) (v : Int)
    (hlit : atoi (trimSpace sv) = some v)
    (h1 : Variables.setVariable L vars [x, sv] = .ok (vars1, none)) :
    Variables.getVariable vars1 (trimSpace x) = (v, true) ∧
    (∀ k : String, k ≠ trimSpace x → vars1 k = vars k) ∧
    ∀ y : String,
      (Variables.isValidIdentifier L (trimSpace y) = true →
        ∃ vars2, Variables.setVariable L vars1 [y, x] = .ok (vars2, none)) ∧
      ∀ vars2 : Variables, Variables.setVariable L vars1 [y, x] = .ok (vars2, none) →
        Variables.getVariable vars2 (trimSpace y) = (v, true) ∧
        ∀ (raw : String) (vars3 : Variables), trimSpace y ≠ trimSpace x →
          Variables.setVariable L vars2 [x, raw] = .ok (vars3, none) →
          Variables.getVariable vars3 (trimSpace y) = (v, true) := by
  obtain ⟨hx, _⟩ := setVariable_success L vars vars1 x sv h1
  have e1 : vars1 = Variables.insert vars (trimSpace x) v := by
    rw [setVariable_literal L vars x sv v hx hlit] at h1
    cases h1; rfl
  have hbound : vars1 (trimSpace x) = some v := by simp [e1, Variables.insert]
  refine ⟨by rw [e1]; exact insert_same _ _ _, ?_, ?_⟩
  · intro k hk
    rw [e1]; exact insert_other _ _ _ _ hk
  · intro y
    refine ⟨fun hy => ⟨_, setVariable_identifier L vars1 y x v hy hx hbound⟩, ?_⟩
    intro vars2 h2
    obtain ⟨hy, _⟩ := setVariable_success L vars1 vars2 y x h2
    have e2 : vars2 = Variables.insert vars1 (trimSpace y) v := by
      rw [setVariable_identifier L vars1 y x v hy hx hbound] at h2
      cases h2; rfl
    refine ⟨by rw [e2]; exact insert_same _ _ _, ?_⟩
    intro raw vars3 hne h3
    obtain ⟨_, value, e3⟩ := setVariable_success L vars2 vars3 x raw h3
    rw [e3]
    simp only [Variables.getVariable, insert_other _ _ _ _ hne]
    rw [e2]
    simp [Variables.insert]

theorem setVariable_round_trip_witness :
    Variables.getVariable
      (Variables.insert (Variables.insert (Variables.insert noVariables "x" 5) "y" 5) "x" 7)
      "y" = (5, true) :=
  (((setVariable_round_trip asciiLib noVariables (Variables.insert noVariables "x" 5) "x" "5" 5
    (by rfl) (by rfl)).2.2 "y").2
      (Variables.insert (Variables.insert noVariables "x" 5) "y" 5) (by rfl)).2 "7"
    (Variables.insert (Variables.insert (Variables.insert noVariables "x" 5) "y" 5) "x" 7)
    (by decide) (by rfl)

theorem mem_trimSpace (s : String) (c : Char) (h : c ∈ (trimSpace s).data) : c ∈ s.data := by
  unfold trimSpace at h
  simp only [List.mem_reverse] at h
  have h1 := List.dropWhile_subset isSpace h
  rw [List.mem_reverse] at h1
  exact List.dropWhile_subset isSpace h1

/-- C12, at the name `x` and the value `99999999999999999999`: the value passes
`isNumber`, `strconv.Atoi` fails on it, and `getNumber` ends the program with
`log.Fatal`: `setVariable` returns neither nil nor one of the three errors. -/
theorem setVariable_number_out_of_range :
    Variables.isValidIdentifier asciiLib "x" = true ∧
    isNumber asciiLib "99999999999999999999" = true ∧
    atoi "99999999999999999999" = none ∧
    Variables.setVariable asciiLib noVariables ["x", "99999999999999999999"] = .error .fatal ∧
    ¬ ∃ r, Variables.setVariable asciiLib noVariables ["x", "99999999999999999999"] = .ok r := by
  have h : Variables.setVariable asciiLib noVariables ["x", "99999999999999999999"] =
      .error .fatal := by rfl
  refine ⟨by decide, by decide, by rfl, h, ?_⟩
  rintro ⟨r, hr⟩
  rw [h] at hr
  cases hr

/-- C12, amended: for a name and a value of ASCII characters, `setVariable`
(after trimming both) returns "Invalid identifier" if the name is empty or not
made solely of letters; otherwise "Invalid assignment" if the value is neither a
number (`isNumber`) nor made solely of letters; otherwise "Unknown variable" if
the value is an identifier not bound in the map; otherwise nil, with the name
bound to the value of the referenced identifier, or to the value of the number
when `strconv.Atoi` reads it. For a number outside the range of `int`,
`getNumber` calls `log.Fatal` and `setVariable` does not return. -/
theorem setVariable_cases (L : Lib) (vars : Variables) (name raw : String)
    (hn : ∀ c ∈ name.data, c.toNat < 128) (hr : ∀ c ∈ raw.data, c.toNat < 128) :
    (¬ lettersOnly L (trimSpace name) →
      Variables.setVariable L vars [name, raw] = .ok (vars, some "Invalid identifier")) ∧
    (lettersOnly L (trimSpace name) →
      (¬ lettersOnly L (trimSpace raw) → isNumber L (trimSpace raw) = false →
        Variables.setVariable L vars [name, raw] = .ok (vars, some "Invalid assignment")) ∧
      (lettersOnly L (trimSpace raw) → vars (trimSpace raw) = none →
        Variables.setVariable L vars [name, raw] = .ok (vars, some "Unknown variable")) ∧
      (lettersOnly L (trimSpace raw) → ∀ v : Int, vars (trimSpace raw) = some v →
        Variables.setVariable L vars [name, raw] =
          .ok (Variables.insert vars (trimSpace name) v, none)) ∧
      (∀ v : Int, atoi (trimSpace raw) = some v →
        Variables.setVariable L vars [name, raw] =
          .ok (Variables.insert vars (trimSpace name) v, none)) ∧
      (isNumber L (trimSpace raw) = true → atoi (trimSpace raw) = none →
        Variables.setVariable L vars [name, raw] = .error .fatal)) := by
  have hvn : Variables.isValidIdentifier L (trimSpace name) = true ↔ lettersOnly L (trimSpace name) :=
    isValidIdentifier_ascii L _ fun c hc => hn c (mem_trimSpace name c hc)
  have hvr : Variables.isValidIdentifier L (trimSpace raw) = true ↔ lettersOnly L (trimSpace raw) :=
    isValidIdentifier_ascii L _ fun c hc => hr c (mem_trimSpace raw c hc)
  constructor
  · intro h
    have : Variables.isValidIdentifier L (trimSpace name) = false := by
      cases hv : Variables.isValidIdentifier L (trimSpace name) with
      | false => rfl
      | true => exact absurd (hvn.1 hv) h
    rw [setVariable_pair]
    simp [this]
  · intro h
    have hname := hvn.2 h
    refine ⟨?_, ?_, ?_, ?_, ?_⟩
    · intro hnl hnum
      have : Variables.isValidIdentifier L (trimSpace raw) = false := by
        cases hv : Variables.isValidIdentifier L (trimSpace raw) with
        | false => rfl
        | true => exact absurd (hvr.1 hv) hnl
      rw [setVariable_pair]
      simp [hname, this, hnum]
    · intro hl hunbound
      have hraw := hvr.2 hl
      have hnum := isNumber_of_isValidIdentifier L _ hraw
      rw [setVariable_pair]
      simp [hname, hraw, hnum, Variables.getVariable, hunbound]
    · intro hl v hbound
      exact setVariable_identifier L vars name raw v hname (hvr.2 hl) hbound
    · intro v hlit
      exact setVariable_literal L vars name raw v hname hlit
    · intro hnum hnone
      rw [setVariable_pair]
      simp [hname, hnum, getNumber, hnone]

theorem setVariable_cases_witness :
    Variables.setVariable asciiLib (Variables.insert noVariables "x" 5) [" y ", " x"] =
      .ok (Variables.insert (Variables.insert noVariables "x" 5) (trimSpace " y ") 5, none) :=
  ((setVariable_cases asciiLib (Variables.insert noVariables "x" 5) " y " " x"
    (by decide) (by decide)).2 (by decide)).2.2.1 (by decide) 5 (by rfl)

/-- An operand that is a variable bound in the map is pushed on the evaluation
stack with its value. -/
theorem calculateLoop_variable (L : Lib) (vars : Variables) (s : String) (v : Int)
    (hvalid : Variables.isValidIdentifier L s = true) (hbound : vars s = some v)
    (rest : List Element) (result : Stack Int) :
    calculateLoop L vars (.operand s :: rest) result =
      calculateLoop L vars rest (v :: result) := by
  have hnum := isNumber_of_isValidIdentifier L s hvalid
  simp [calculateLoop, hnum, hvalid, Variables.getVariable, hbound, Stack.add]

/-- The three cases of an operand: for an operand `t` that is not a number, `calculate` on the sequence `t`
alone fails with "Invalid identifier" if `t` has a character that is not a
letter, and more generally exactly when `t` is not a valid identifier; fails
with "Unknown variable" if `t` is a valid identifier not bound in the map; and
returns the bound value if `t` is a valid identifier bound in the map. With `x`
bound to `v` and `n` an integer literal, the sequence `x n +` evaluates to Go's
`v + n`. On a non-empty text of ASCII characters, being a valid identifier is
being made solely of letters. -/
theorem calculate_operand (L : Lib) (vars : Variables) (t : String)
    (hnum : isNumber L t = false) :
    ((∃ c ∈ t.data, L.unicodeIsLetter c = false) →
      calculate L [.operand t] vars = .ok (0, some "Invalid identifier")) ∧
    (Variables.isValidIdentifier L t = false →
      calculate L [.operand t] vars = .ok (0, some "Invalid identifier")) ∧
    (Variables.isValidIdentifier L t = true → vars t = none →
      calculate L [.operand t] vars = .ok (0, some "Unknown variable")) ∧
    (Variables.isValidIdentifier L t = true → ∀ v : Int, vars t = some v →
      calculate L [.operand t] vars = .ok (v, none)) ∧
    ((∀ c ∈ t.data, c.toNat < 128) →
      (Variables.isValidIdentifier L t = true ↔ lettersOnly L t)) ∧
    (∀ (sn : String) (v n : Int), Variables.isValidIdentifier L t = true → vars t = some v →
      atoi sn = some n →
      calculate L [.operand t, .operand sn, .operator "+"] vars = .ok (wrapInt (v + n), none)) := by
  have hinvalid : Variables.isValidIdentifier L t = false →
      calculate L [.operand t] vars = .ok (0, some "Invalid identifier") := by
    intro h
    simp [calculate, calculateLoop, hnum, h]
  refine ⟨?_, hinvalid, ?_, ?_, fun h => isValidIdentifier_ascii L t h, ?_⟩
  · rintro ⟨c, hc, hl⟩
    exact hinvalid (isValidIdentifier_of_not_letter L t c hc hl)
  · intro hv hunbound
    simp [calculate, calculateLoop, hnum, hv, Variables.getVariable, hunbound]
  · intro hv v hbound
    rw [calculate, calculateLoop_variable L vars t v hv hbound]
    simp [calculateLoop, Stack.last]
  · intro sn v n hv hbound hn
    have hplus : Operator.convertAdmissibleOperator "+" = "+" := by decide
    rw [calculate, calculateLoop_variable L vars t v hv hbound,
      calculateLoop_literal L vars sn n hn]
    simp [calculateLoop, hplus, Stack.pop, Stack.add, Stack.last]

theorem calculate_operand_witness :
    calculate asciiLib [.operand "x", .operand "2", .operator "+"]
      (Variables.insert noVariables "x" 5) = .ok (7, none) :=
  ((calculate_operand asciiLib (Variables.insert noVariables "x" 5) "x" (by decide)).2.2.2.2.2
    "2" 5 2 (by decide) (by rfl) (by rfl)).trans (by rw [show wrapInt (5 + 2) = 7 by decide])

/-! ### Tokens of the space-less form -/

/-- A single character passes `isNumber` exactly when it is a decimal digit. -/
theorem isNumber_singleton (L : Lib) (r : Char) : isNumber L (String.singleton r) = r.isDigit := by
  have hdata : (String.singleton r).data = [r] := rfl
  unfold isNumber
  rw [hdata]
  simp only
  by_cases hs : r = '+' ∨ r = '-'
  · rw [if_pos hs]
    rcases hs with rfl | rfl <;> simp [byteLen]
  · rw [if_neg hs]
    by_cases hlt : r.toNat < 128
    · simp only [List.countP_cons, List.countP_nil, L.number_ascii r hlt, byteLen, List.map,
        List.sum_cons, List.sum_nil, utf8Size_of_lt r hlt]
      cases r.isDigit <;> simp
    · have hd : r.isDigit = false := by
        cases h : r.isDigit with
        | false => rfl
        | true => exact absurd (digit_lt r h) hlt
      have hsz : r.utf8Size ≠ 1 := fun h => hlt (lt_of_utf8Size_eq_one r h)
      have hpos := Char.utf8Size_pos r
      rw [hd]
      simp only [List.countP_cons, List.countP_nil, byteLen, List.map, List.sum_cons,
        List.sum_nil]
      cases L.unicodeIsNumber r
      · simp
      · simp; omega

theorem containsAny_singleton (c : Char) : containsAny (String.singleton c) "+-/*^" = opChar c := by
  have hdata : (String.singleton c).data = [c] := rfl
  simp [containsAny, opChar, hdata]

/-- C11: with U+00E9 a letter, the operand of that one letter is made solely of
letters and is not a number, yet `calculate` fails on it with
"Invalid identifier", where the claim gives "Unknown variable" when it is not
bound and the bound value when it is; so does every operand of one letter
outside ASCII. The ASCII operand `e` behaves as the claim says. -/
theorem calculate_rejects_letter_outside_ascii :
    accentLib.unicodeIsLetter 'é' = true ∧
    lettersOnly accentLib "é" ∧
    isNumber accentLib "é" = false ∧
    calculate accentLib [.operand "é"] noVariables = .ok (0, some "Invalid identifier") ∧
    calculate accentLib [.operand "é"] (Variables.insert noVariables "é" 7) =
      .ok (0, some "Invalid identifier") ∧
    pipeline accentLib noVariables "é" = .ok (0, some "Invalid identifier") ∧
    calculate accentLib [.operand "e"] noVariables = .ok (0, some "Unknown variable") ∧
    calculate accentLib [.operand "e"] (Variables.insert noVariables "e" 7) = .ok (7, none) ∧
    (∀ (L : Lib) (vars : Variables) (c : Char), L.unicodeIsLetter c = true → 128 ≤ c.toNat →
      calculate L [.operand (String.singleton c)] vars = .ok (0, some "Invalid identifier")) := by
  refine ⟨by decide, by decide, by decide, by rfl, by rfl, by rfl, by rfl, by rfl, ?_⟩
  intro L vars c _ hge
  have hnum : isNumber L (String.singleton c) = false := by
    rw [isNumber_singleton]
    cases h : c.isDigit with
    | false => rfl
    | true => have := digit_lt c h; omega
  have hvalid : Variables.isValidIdentifier L (String.singleton c) = false := by
    cases h : Variables.isValidIdentifier L (String.singleton c) with
    | false => rfl
    | true =>
      have h1 := ((isValidIdentifier_iff L _).1 h).2 c (by simp [String.singleton])
      have := lt_of_utf8Size_eq_one c h1.2
      omega
  simp [calculate, calculateLoop, hnum, hvalid]


/-- After the first character, `addSpaces` glues a character to the one before
it exactly when the two are of the same class. -/
theorem addSpacesLoop_cons (L : Lib) (r : Char) (rest : List Char) (i : Nat) (lastElement : Char)
    (hi : i ≠ 0) :
    addSpacesLoop L (r :: rest) i lastElement =
      if sameClass L lastElement r then r :: addSpacesLoop L rest (i + r.utf8Size) r
      else ' ' :: r :: addSpacesLoop L rest (i + r.utf8Size) r := by
  rw [addSpacesLoop, isNumber_singleton, isNumber_singleton, containsAny_singleton,
    containsAny_singleton]
  simp only [hi, decide_False, Bool.or_false]
  rfl

/-- The first character is written with or without a space before it. -/
theorem addSpacesLoop_first (L : Lib) (r : Char) (rest : List Char) (lastElement : Char) :
    addSpacesLoop L (r :: rest) 0 lastElement = r :: addSpacesLoop L rest r.utf8Size r ∨
      addSpacesLoop L (r :: rest) 0 lastElement =
        ' ' :: r :: addSpacesLoop L rest r.utf8Size r := by
  rw [addSpacesLoop]
  simp only [Nat.zero_add]
  split
  · exact Or.inl rfl
  · exact Or.inr rfl

theorem runs_ne_nil (L : Lib) (a : Char) (rest : List Char) : runs L (a :: rest) ≠ [] := by
  cases rest with
  | nil => simp [runs]
  | cons b rest =>
    rw [runs]
    split
    · simp
    · split <;> simp

/-- A run and what follows it: when the characters of `pre` and `lastElement`
are chained by `sameClass` and the next character is of another class, the first
of the runs is `pre` with `lastElement`. -/
theorem runs_boundary (L : Lib) (pre : List Char) (lastElement : Char) (rest : List Char)
    (hchain : List.Chain' (fun a b => sameClass L a b = true) (pre ++ [lastElement]))
    (hb : ∀ b, rest.head? = some b → sameClass L lastElement b = false) :
    runs L (pre ++ lastElement :: rest) = (pre ++ [lastElement]) :: runs L rest := by
  induction pre with
  | nil =>
    cases rest with
    | nil => simp [runs]
    | cons b rest =>
      have hne := runs_ne_nil L b rest
      simp only [List.nil_append]
      rw [runs]
      cases hr : runs L (b :: rest) with
      | nil => exact absurd hr hne
      | cons run more => simp [hb b rfl]
  | cons a pre ih =>
    cases pre with
    | nil =>
      simp only [List.cons_append, List.nil_append] at hchain ih ⊢
      have hab : sameClass L a lastElement = true := by
        simpa using (List.chain'_cons.1 hchain).1
      rw [runs, ih (List.chain'_singleton _)]
      simp [hab]
    | cons a2 pre =>
      simp only [List.cons_append] at hchain ih ⊢
      have hab : sameClass L a a2 = true := (List.chain'_cons.1 hchain).1
      rw [runs, ih (List.chain'_cons.1 hchain).2]
      simp [hab]

/-- The fields of what `addSpaces` writes for the rest of a space-less text, with
a token under way, are the runs of the token's characters and the rest. -/
theorem fieldsLoop_addSpacesLoop (L : Lib) (l : List Char) (hns : ∀ c ∈ l, isSpace c = false) :
    ∀ (i : Nat) (lastElement : Char) (pre : List Char), i ≠ 0 →
      List.Chain' (fun a b => sameClass L a b = true) (pre ++ [lastElement]) →
      fieldsLoop (addSpacesLoop L l i lastElement) (lastElement :: pre.reverse) =
        (runs L (pre ++ lastElement :: l)).map String.mk := by
  induction l with
  | nil =>
    intro i lastElement pre _ hchain
    rw [runs_boundary L pre lastElement [] hchain (by simp)]
    simp [addSpacesLoop, fieldsLoop, runs]
  | cons r rest ih =>
    intro i lastElement pre hi hchain
    have hr : isSpace r = false := hns r (by simp)
    have hrest : ∀ c ∈ rest, isSpace c = false := fun c hc => hns c (by simp [hc])
    have hi2 : i + r.utf8Size ≠ 0 := by omega
    rw [addSpacesLoop_cons L r rest i lastElement hi]
    by_cases hsame : sameClass L lastElement r = true
    · rw [if_pos hsame, fieldsLoop]
      simp only [hr, Bool.false_eq_true, if_false]
      have hchain2 : List.Chain' (fun a b => sameClass L a b = true)
          ((pre ++ [lastElement]) ++ [r]) := by
        rw [List.chain'_append]
        refine ⟨hchain, List.chain'_singleton _, ?_⟩
        intro x hx y hy
        simp at hx hy
        subst hx; subst hy
        exact hsame
      have := ih hrest (i + r.utf8Size) r (pre ++ [lastElement]) hi2 hchain2
      simp only [List.reverse_append, List.reverse_cons, List.reverse_nil, List.nil_append,
        List.singleton_append, List.append_assoc] at this
      simpa using this
    · rw [if_neg hsame, fieldsLoop]
      have hsp : isSpace ' ' = true := by decide
      simp only [hsp, if_true]
      rw [if_neg (by simp), fieldsLoop]
      simp only [hr, Bool.false_eq_true, if_false]
      have hfalse : sameClass L lastElement r = false := by
        cases h : sameClass L lastElement r with
        | false => rfl
        | true => exact absurd h hsame
      rw [runs_boundary L pre lastElement (r :: rest) hchain
        (by intro b hb; simp at hb; subst hb; exact hfalse)]
      have := ih hrest (i + r.utf8Size) r [] hi2 (List.chain'_singleton _)
      simp only [List.reverse_nil, List.nil_append] at this
      rw [this]
      simp

/-- The fields of what `addSpaces` writes for a text without white space are
the runs of the text. -/
theorem fields_addSpacesLoop (L : Lib) (l : List Char) (hns : ∀ c ∈ l, isSpace c = false) :
    fieldsLoop (addSpacesLoop L l 0 (Char.ofNat 0)) [] = (runs L l).map String.mk := by
  cases l with
  | nil => simp [addSpacesLoop, fieldsLoop, runs]
  | cons r rest =>
    have hr : isSpace r = false := hns r (by simp)
    have hrest : ∀ c ∈ rest, isSpace c = false := fun c hc => hns c (by simp [hc])
    have hpos := Char.utf8Size_pos r
    have hmain := fieldsLoop_addSpacesLoop L rest hrest r.utf8Size r [] (by omega)
      (List.chain'_singleton _)
    simp only [List.reverse_nil, List.nil_append] at hmain
    have hsp : isSpace ' ' = true := by decide
    rcases addSpacesLoop_first L r rest (Char.ofNat 0) with h | h
    · rw [h, fieldsLoop]
      simp only [hr, Bool.false_eq_true, if_false]
      exact hmain
    · rw [h, fieldsLoop]
      simp only [hsp, if_true]
      rw [fieldsLoop]
      simp only [hr, Bool.false_eq_true, if_false]
      exact hmain

/-- What the runs of a text are: they make up the text, each is a non-empty chain
of characters of one class, and where one run ends and the next begins the two
characters are not of the same class. -/
theorem runs_spec (L : Lib) (l : List Char) :
    (runs L l).flatten = l ∧
      (∀ run ∈ runs L l, run ≠ [] ∧ List.Chain' (fun a b => sameClass L a b = true) run) ∧
      List.Chain' (fun r1 r2 : List Char => ∀ a b, r1.getLast? = some a → r2.head? = some b →
        sameClass L a b = false) (runs L l) := by
  induction l with
  | nil => simp [runs]
  | cons a tl ih =>
    cases tl with
    | nil => simp [runs]
    | cons b rest =>
      obtain ⟨hflat, hruns, hbound⟩ := ih
      have hne := runs_ne_nil L b rest
      rw [runs]
      cases hr : runs L (b :: rest) with
      | nil => exact absurd hr hne
      | cons run more =>
        rw [hr] at hflat hruns hbound
        obtain ⟨hrun_ne, hrun_chain⟩ := hruns run (by simp)
        obtain ⟨x, run1, hrun⟩ := List.exists_cons_of_ne_nil hrun_ne
        have hx : x = b := by
          rw [hrun] at hflat
          simp at hflat
          exact hflat.1
        subst hx
        simp only
        by_cases hsame : sameClass L a x = true
        · rw [if_pos hsame]
          refine ⟨?_, ?_, ?_⟩
          · simp only [List.flatten_cons, List.cons_append]
            rw [← List.flatten_cons, hflat]
          · intro r hrm
            rcases List.mem_cons.1 hrm with rfl | hrm
            · refine ⟨by simp, ?_⟩
              rw [hrun, List.chain'_cons]
              rw [hrun] at hrun_chain
              exact ⟨hsame, hrun_chain⟩
            · exact hruns r (by simp [hrm])
          · rw [List.chain'_cons'] at hbound ⊢
            refine ⟨?_, hbound.2⟩
            intro r2 hr2 p q hp hq
            rw [hrun, List.getLast?_cons_cons] at hp
            rw [hrun] at hbound
            exact hbound.1 r2 hr2 p q hp hq
        · rw [if_neg hsame]
          have hfalse : sameClass L a x = false := by
            cases h : sameClass L a x with
            | false => rfl
            | true => exact absurd h hsame
          refine ⟨?_, ?_, ?_⟩
          · simp only [List.flatten_cons, List.cons_append, List.nil_append]
            rw [← List.flatten_cons, hflat]
          · intro r hrm
            rcases List.mem_cons.1 hrm with rfl | hrm
            · exact ⟨by simp, List.chain'_singleton _⟩
            · exact hruns r hrm
          · rw [List.chain'_cons']
            refine ⟨?_, hbound⟩
            intro r2 hr2 p q hp hq
            simp at hr2 hp
            subst hr2; subst hp
            rw [hrun] at hq
            simp at hq
            subst hq
            exact hfalse

/-- A parenthesis is of the same class as no character. -/
theorem sameClass_paren (L : Lib) (c : Char) (hc : c = '(' ∨ c = ')') (b : Char) :
    sameClass L c b = false ∧ sameClass L b c = false := by
  have hl : L.unicodeIsLetter c = false := by
    rcases hc with rfl | rfl
    · rw [L.letter_ascii _ (by decide)]; decide
    · rw [L.letter_ascii _ (by decide)]; decide
  have hd : c.isDigit = false := by rcases hc with rfl | rfl <;> decide
  have ho : opChar c = false := by rcases hc with rfl | rfl <;> decide
  simp [sameClass, hl, hd, ho]

theorem opChar_cases (c : Char) (h : opChar c = true) :
    c = '+' ∨ c = '-' ∨ c = '/' ∨ c = '*' ∨ c = '^' := by
  simpa [opChar] using h

/-- The three classes exclude one another. -/
theorem classes_disjoint (L : Lib) (c : Char) :
    (c.isDigit = true → opChar c = false ∧ L.unicodeIsLetter c = false) ∧
      (opChar c = true → c.isDigit = false ∧ L.unicodeIsLetter c = false) := by
  constructor
  · intro hd
    have hlt := digit_lt c hd
    have hr := (isDigit_iff c).1 hd
    constructor
    · cases ho : opChar c with
      | false => rfl
      | true =>
        rcases opChar_cases c ho with h | h | h | h | h <;> subst h <;> exact absurd hd (by decide)
    · rw [L.letter_ascii c hlt]
      cases ha : c.isAlpha with
      | false => rfl
      | true => rw [(alpha_not_digit_sign c ha).1] at hd; cases hd
  · intro ho
    rcases opChar_cases c ho with h | h | h | h | h <;> subst h <;>
      exact ⟨by decide, by rw [L.letter_ascii _ (by decide)]; decide⟩

/-- A chain of characters of the same class that starts with a character of one
of the three classes stays in that class. -/
theorem chain_class (L : Lib) (run : List Char) (a : Char)
    (hchain : List.Chain (fun x y => sameClass L x y = true) a run) :
    (a.isDigit = true → ∀ c ∈ a :: run, c.isDigit = true) ∧
      (L.unicodeIsLetter a = true → ∀ c ∈ a :: run, L.unicodeIsLetter c = true) ∧
      (opChar a = true → ∀ c ∈ a :: run, opChar c = true) := by
  induction run generalizing a with
  | nil => simp
  | cons b run ih =>
    rw [List.chain_cons] at hchain
    obtain ⟨hab, hrest⟩ := hchain
    obtain ⟨ihd, ihl, iho⟩ := ih b hrest
    obtain ⟨hda, hoa⟩ := classes_disjoint L a
    have hsame : (b.isDigit = true ∧ a.isDigit = true) ∨ (opChar a = true ∧ opChar b = true) ∨
        (L.unicodeIsLetter b = true ∧ L.unicodeIsLetter a = true) := by
      simpa [sameClass, or_assoc] using hab
    refine ⟨?_, ?_, ?_⟩
    · intro ha c hc
      obtain ⟨h1, h2⟩ := hda ha
      have hb : b.isDigit = true := by
        rcases hsame with h | h | h
        · exact h.1
        · rw [h1] at h; cases h.1
        · rw [h2] at h; cases h.2
      rcases List.mem_cons.1 hc with rfl | hc
      · exact ha
      · exact ihd hb c hc
    · intro ha c hc
      have hb : L.unicodeIsLetter b = true := by
        rcases hsame with h | h | h
        · rw [(hda h.2).2] at ha; cases ha
        · rw [(hoa h.1).2] at ha; cases ha
        · exact h.1
      rcases List.mem_cons.1 hc with rfl | hc
      · exact ha
      · exact ihl hb c hc
    · intro ha c hc
      obtain ⟨h1, h2⟩ := hoa ha
      have hb : opChar b = true := by
        rcases hsame with h | h | h
        · rw [h1] at h; cases h.2
        · exact h.2
        · rw [h2] at h; cases h.2
      rcases List.mem_cons.1 hc with rfl | hc
      · exact ha
      · exact iho hb c hc

/-- A text without white space that is not a number is in space-less form, and
the fields of its normal form are its runs. -/
theorem fields_addSpaces_spaceless (L : Lib) (line : String)
    (hns : ∀ c ∈ line.data, isSpace c = false) (hnum : isNumber L line = false) :
    Infix.isSpaceLessForm L (trimSpace line) = true ∧
      fields (Infix.addSpaces L line) = (runs L line.data).map String.mk := by
  have htrim : trimSpace line = line :=
    trimSpace_of_ends line
      (fun c hc => hns c (List.mem_of_mem_head? hc))
      (fun c hc => hns c (List.mem_of_getLast?_eq_some hc))
  have hno : ' ' ∉ line.data := by
    intro h
    have := hns ' ' h
    revert this
    decide
  have hform : Infix.isSpaceLessForm L line = true := by
    simp [Infix.isSpaceLessForm, hnum, containsChar, hno]
  refine ⟨by rw [htrim]; exact hform, ?_⟩
  unfold Infix.addSpaces
  simp only [htrim, hform, Bool.not_true, Bool.false_eq_true, if_false]
  exact fields_addSpacesLoop L line.data hns

/-- C15, at `2*-3`: the line is in space-less form and its tokens are `2`, `*-`
and `3`: the `*` is glued to the `-` that follows it, and the line fails with
"Invalid identifier". -/
theorem star_glued_to_minus :
    Infix.isSpaceLessForm asciiLib "2*-3" = true ∧
    Infix.addSpaces asciiLib "2*-3" = "2 *- 3" ∧
    fields (Infix.addSpaces asciiLib "2*-3") = ["2", "*-", "3"] ∧
    fields (Infix.addSpaces asciiLib "2*-3") ≠ ["2", "*", "-", "3"] ∧
    pipeline asciiLib noVariables "2*-3" = .ok (0, some "Invalid identifier") :=
  ⟨by decide, by decide, by decide, by decide, by rfl⟩

/-- C15, amended: for every line in space-less form (no white space, not a bare
number) made of digits, letters, the operator characters `+ - * / ^` and
parentheses, the tokens after `addSpaces` are the maximal runs of the line: the
runs make up the line; each is a run of digits, a run of letters, a run of
operator characters or a single parenthesis; and where one token ends and the
next begins the two characters are not both digits, not both letters and not
both operator characters. So runs of operator characters such as `*-` are one
token, and only `(` and `)` are always tokens on their own. -/
theorem addSpaces_spaceless_tokens (L : Lib) (line : String)
    (hns : ∀ c ∈ line.data, isSpace c = false) (hnum : isNumber L line = false)
    (halpha : ∀ c ∈ line.data, c.isDigit = true ∨ L.unicodeIsLetter c = true ∨ opChar c = true ∨
      c = '(' ∨ c = ')') :
    Infix.isSpaceLessForm L (trimSpace line) = true ∧
    fields (Infix.addSpaces L line) = (runs L line.data).map String.mk ∧
    (runs L line.data).flatten = line.data ∧
    (∀ run ∈ runs L line.data, run ≠ [] ∧
      ((∀ c ∈ run, c.isDigit = true) ∨ (∀ c ∈ run, L.unicodeIsLetter c = true) ∨
        (∀ c ∈ run, opChar c = true) ∨ run = ['('] ∨ run = [')'])) ∧
    List.Chain' (fun r1 r2 : List Char => ∀ a b, r1.getLast? = some a → r2.head? = some b →
      ¬ (a.isDigit = true ∧ b.isDigit = true) ∧
      ¬ (L.unicodeIsLetter a = true ∧ L.unicodeIsLetter b = true) ∧
      ¬ (opChar a = true ∧ opChar b = true)) (runs L line.data) := by
  obtain ⟨hform, hfields⟩ := fields_addSpaces_spaceless L line hns hnum
  obtain ⟨hflat, hruns, hbound⟩ := runs_spec L line.data
  refine ⟨hform, hfields, hflat, ?_, ?_⟩
  · intro run hrun
    obtain ⟨hne, hchain⟩ := hruns run hrun
    refine ⟨hne, ?_⟩
    obtain ⟨a, rest, rfl⟩ := List.exists_cons_of_ne_nil hne
    have hmem : a ∈ line.data := by
      rw [← hflat]
      exact List.mem_flatten.2 ⟨_, hrun, by simp⟩
    obtain ⟨hd, hl, ho⟩ := chain_class L rest a hchain
    rcases halpha a hmem with h | h | h | h | h
    · exact Or.inl (hd h)
    · exact Or.inr (Or.inl (hl h))
    · exact Or.inr (Or.inr (Or.inl (ho h)))
    · right; right; right; left
      cases rest with
      | nil => rw [h]
      | cons b rest =>
        have h1 : sameClass L a b = true := (List.chain_cons.1 hchain).1
        rw [(sameClass_paren L a (Or.inl h) b).1] at h1
        cases h1
    · right; right; right; right
      cases rest with
      | nil => rw [h]
      | cons b rest =>
        have h1 : sameClass L a b = true := (List.chain_cons.1 hchain).1
        rw [(sameClass_paren L a (Or.inr h) b).1] at h1
        cases h1
  · refine List.Chain'.imp ?_ hbound
    intro r1 r2 h a b ha hb
    have hf := h a b ha hb
    refine ⟨?_, ?_, ?_⟩
    · rintro ⟨h1, h2⟩
      simp [sameClass, h1, h2] at hf
    · rintro ⟨h1, h2⟩
      simp [sameClass, h1, h2] at hf
    · rintro ⟨h1, h2⟩
      simp [sameClass, h1, h2] at hf

theorem addSpaces_spaceless_tokens_witness :
    fields (Infix.addSpaces asciiLib "12*(ab--3)") = ["12", "*", "(", "ab", "--", "3", ")"] :=
  (addSpaces_spaceless_tokens asciiLib "12*(ab--3)" (by decide) (by decide)
    (by decide)).2.1.trans (by decide)

/-! ### Ordinary token sequences -/

theorem isAlpha_cases (c : Char) (h : c.isAlpha = true) :
    (65 ≤ c.toNat ∧ c.toNat ≤ 90) ∨ (97 ≤ c.toNat ∧ c.toNat ≤ 122) := by
  have e : c.toNat = c.val.toNat := rfl
  simp only [Char.isAlpha, Char.isUpper, Char.isLower, Bool.or_eq_true, Bool.and_eq_true,
    decide_eq_true_eq, ge_iff_le, UInt32.le_def] at h
  rcases h with ⟨h1, h2⟩ | ⟨h1, h2⟩
  · left; rw [e]; exact ⟨h1, h2⟩
  · right; rw [e]; exact ⟨h1, h2⟩

theorem alpha_lt (c : Char) (h : c.isAlpha = true) : c.toNat < 128 := by
  have := isAlpha_cases c h; omega

theorem alpha_not_space (c : Char) (h : c.isAlpha = true) : isSpace c = false := by
  have := isAlpha_cases c h
  simp only [isSpace]
  have e1 : ¬ (c.toNat ≤ 13) := by omega
  have e2 : ¬ (8192 ≤ c.toNat) := by omega
  simp [e1, e2]
  omega

/-- The characters of an ordinary token are not white space, and each tells the
kind of the token: a digit or a letter is in an operand, an operator character
is an operator token. -/
theorem ordinaryToken_chars (L : Lib) (t : String) (ht : ordinaryToken t) :
    t.data ≠ [] ∧
      (∀ c ∈ t.data, isSpace c = false) ∧
      (∀ c ∈ t.data, c.isDigit = true → isOperandToken t) ∧
      (∀ c ∈ t.data, L.unicodeIsLetter c = true → isOperandToken t) ∧
      (∀ c ∈ t.data, opChar c = true → isOperatorToken t) ∧
      List.Chain' (fun a b => sameClass L a b = true) t.data := by
  rcases ht with (⟨hne, hd⟩ | ⟨hne, ha⟩) | hop | hpar
  · refine ⟨hne, ?_, fun _ _ _ => Or.inl ⟨hne, hd⟩, fun _ _ _ => Or.inl ⟨hne, hd⟩, ?_, ?_⟩
    · intro c hc
      exact literalChar_not_space c (Or.inl (hd c hc))
    · intro c hc ho
      rw [((classes_disjoint L c).1 (hd c hc)).1] at ho
      cases ho
    · apply List.Pairwise.chain'
      apply List.pairwise_of_forall_mem_list
      intro a ha b hb
      simp [sameClass, hd a ha, hd b hb]
  · have hlet : ∀ c ∈ t.data, L.unicodeIsLetter c = true := by
      intro c hc
      rw [L.letter_ascii c (alpha_lt c (ha c hc))]
      exact ha c hc
    refine ⟨hne, ?_, fun _ _ _ => Or.inr ⟨hne, ha⟩, fun _ _ _ => Or.inr ⟨hne, ha⟩, ?_, ?_⟩
    · intro c hc
      exact alpha_not_space c (ha c hc)
    · intro c hc ho
      have := hlet c hc
      rw [((classes_disjoint L c).2 ho).2] at this
      cases this
    · apply List.Pairwise.chain'
      apply List.pairwise_of_forall_mem_list
      intro a ha1 b hb1
      simp [sameClass, hlet a ha1, hlet b hb1]
  · have hdata : ∃ c, t.data = [c] ∧ opChar c = true ∧ isSpace c = false := by
      rcases hop with h | h | h | h | h <;> subst h <;> exact ⟨_, rfl, by decide, by decide⟩
    obtain ⟨c, hc, ho, hs⟩ := hdata
    obtain ⟨h1, h2⟩ := (classes_disjoint L c).2 ho
    rw [hc]
    refine ⟨by simp, ?_, ?_, ?_, fun _ _ _ => hop, List.chain'_singleton _⟩
    · intro d hd; simp at hd; subst hd; exact hs
    · intro d hd hdig; simp at hd; subst hd; rw [h1] at hdig; cases hdig
    · intro d hd hl; simp at hd; subst hd; rw [h2] at hl; cases hl
  · have hdata : ∃ c, t.data = [c] ∧ (c = '(' ∨ c = ')') := by
      rcases hpar with h | h <;> subst h
      · exact ⟨_, rfl, Or.inl rfl⟩
      · exact ⟨_, rfl, Or.inr rfl⟩
    obtain ⟨c, hc, hp⟩ := hdata
    have hd : c.isDigit = false := by rcases hp with rfl | rfl <;> decide
    have ho : opChar c = false := by rcases hp with rfl | rfl <;> decide
    have hs : isSpace c = false := by rcases hp with rfl | rfl <;> decide
    have hl : L.unicodeIsLetter c = false := by
      rcases hp with rfl | rfl
      · rw [L.letter_ascii _ (by decide)]; decide
      · rw [L.letter_ascii _ (by decide)]; decide
    rw [hc]
    refine ⟨by simp, ?_, ?_, ?_, ?_, List.chain'_singleton _⟩
    · intro d hd1; simp at hd1; subst hd1; exact hs
    · intro d hd1 hdig; simp at hd1; subst hd1; rw [hd] at hdig; cases hdig
    · intro d hd1 hlet; simp at hd1; subst hd1; rw [hl] at hlet; cases hlet
    · intro d hd1 hop; simp at hd1; subst hd1; rw [ho] at hop; cases hop

theorem runs_append (L : Lib) (w rest : List Char) (hne : w ≠ [])
    (hchain : List.Chain' (fun a b => sameClass L a b = true) w)
    (hb : ∀ a b, w.getLast? = some a → rest.head? = some b → sameClass L a b = false) :
    runs L (w ++ rest) = w :: runs L rest := by
  rcases List.eq_nil_or_concat w with h | ⟨pre, lastElement, h⟩
  · exact absurd h hne
  · rw [List.concat_eq_append] at h
    subst h
    have := runs_boundary L pre lastElement rest hchain
      (fun b hbh => hb lastElement b (by simp) hbh)
    simpa using this

/-- The runs of ordinary tokens concatenated without spaces are the tokens, when
no two operands and no two operators are adjacent. -/
theorem runs_concat (L : Lib) (tokens : List String) (htok : ∀ t ∈ tokens, ordinaryToken t)
    (hsep : separated tokens) :
    runs L (tokens.flatMap String.data) = tokens.map String.data := by
  induction tokens with
  | nil => simp [runs]
  | cons t ts ih =>
    obtain ⟨hne, _, hd, hl, ho, hchain⟩ := ordinaryToken_chars L t (htok t (by simp))
    have hts : ∀ u ∈ ts, ordinaryToken u := fun u hu => htok u (by simp [hu])
    rw [List.flatMap_cons, List.map_cons]
    cases ts with
    | nil =>
      rw [runs_append L t.data _ hne hchain (by simp)]
      simp [runs]
    | cons t2 ts2 =>
      obtain ⟨hsep1, hsep2⟩ := hsep
      obtain ⟨hne2, _, hd2, hl2, ho2, _⟩ := ordinaryToken_chars L t2 (htok t2 (by simp))
      rw [runs_append L t.data _ hne hchain, ih hts hsep2]
      intro a b ha hb
      have hamem : a ∈ t.data := List.mem_of_getLast?_eq_some ha
      have hbmem : b ∈ t2.data := by
        obtain ⟨x, xs, hx⟩ := List.exists_cons_of_ne_nil hne2
        rw [List.flatMap_cons, hx] at hb
        simp at hb
        rw [hx, ← hb]
        simp
      cases hs : sameClass L a b with
      | false => rfl
      | true =>
        exfalso
        have hsame : (b.isDigit = true ∧ a.isDigit = true) ∨ (opChar a = true ∧ opChar b = true) ∨
            (L.unicodeIsLetter b = true ∧ L.unicodeIsLetter a = true) := by
          simpa [sameClass, or_assoc] using hs
        rcases hsame with h | h | h
        · exact hsep1.1 ⟨hd a hamem h.2, hd2 b hbmem h.1⟩
        · exact hsep1.2 ⟨ho a hamem h.1, ho2 b hbmem h.2⟩
        · exact hsep1.1 ⟨hl a hamem h.2, hl2 b hbmem h.1⟩

/-- What `isNumber` accepts: a non-empty run of decimal digits, possibly after
one sign. -/
theorem isNumber_true (L : Lib) (s : String) (h : isNumber L s = true) :
    ∃ body : List Char, body ≠ [] ∧ (∀ c ∈ body, c.isDigit = true) ∧
      (s.data = body ∨ s.data = '+' :: body ∨ s.data = '-' :: body) := by
  unfold isNumber at h
  cases hs : s.data with
  | nil => rw [hs] at h; cases h
  | cons c cs =>
    rw [hs] at h
    simp only [Bool.and_eq_true, decide_eq_true_eq] at h
    obtain ⟨hlen, hcount⟩ := h
    have hall := (byteLen_eq_countP L.unicodeIsNumber _).1 hlen
    have hdig : ∀ d ∈ (if c = '+' ∨ c = '-' then cs else c :: cs), d.isDigit = true := by
      intro d hd
      obtain ⟨h1, h2⟩ := hall d hd
      rw [← L.number_ascii d (lt_of_utf8Size_eq_one d h2)]
      exact h1
    have hne : (if c = '+' ∨ c = '-' then cs else c :: cs) ≠ [] := by
      intro hnil
      rw [hnil] at hcount
      exact hcount rfl
    by_cases hsign : c = '+' ∨ c = '-'
    · rw [if_pos hsign] at hdig hne
      refine ⟨cs, hne, hdig, ?_⟩
      rcases hsign with rfl | rfl
      · exact Or.inr (Or.inl rfl)
      · exact Or.inr (Or.inr rfl)
    · rw [if_neg hsign] at hdig hne
      exact ⟨c :: cs, hne, hdig, Or.inl rfl⟩

theorem head_of_flatMap (t : String) (ts : List String) (rest : List Char) (c : Char)
    (hne : t.data ≠ []) (h : (t :: ts).flatMap String.data = c :: rest) :
    ∃ tl, t.data = c :: tl ∧ rest = tl ++ ts.flatMap String.data := by
  obtain ⟨x, xs, hx⟩ := List.exists_cons_of_ne_nil hne
  rw [List.flatMap_cons, hx] at h
  simp only [List.cons_append, List.cons.injEq] at h
  exact ⟨xs, by rw [hx, h.1], h.2.symm⟩

/-- The concatenation of two or more ordinary tokens, no two operands and no two
operators adjacent, is a number only when the tokens are a sign and an unsigned
number. -/
theorem concat_isNumber (L : Lib) (tokens : List String) (htok : ∀ t ∈ tokens, ordinaryToken t)
    (hsep : separated tokens) (hlen : 2 ≤ tokens.length)
    (hnum : isNumber L (concatTokens tokens) = true) : signedNumber tokens := by
  obtain ⟨body, hbne, hbd, hdata⟩ := isNumber_true L _ hnum
  match tokens, htok, hsep, hlen, hdata with
  | [], _, _, hlen, _ => simp at hlen
  | [_], _, _, hlen, _ => simp at hlen
  | t1 :: t2 :: ts, htok, hsep, _, hdata =>
    obtain ⟨hne1, _, hd1, _, ho1, _⟩ := ordinaryToken_chars L t1 (htok t1 (by simp))
    obtain ⟨hne2, _, hd2, _, _, _⟩ := ordinaryToken_chars L t2 (htok t2 (by simp))
    obtain ⟨hsep1, hsep2⟩ := hsep
    have hcat : (concatTokens (t1 :: t2 :: ts)).data = (t1 :: t2 :: ts).flatMap String.data := rfl
    rw [hcat] at hdata
    -- the digits of `body` that come from `t2` and from a third token
    have hsecond : ∀ tl : List Char, (∀ c ∈ tl, c.isDigit = true) →
        (∀ c ∈ (t2 :: ts).flatMap String.data, c.isDigit = true) →
        isUnsignedNumber t2 ∧ ts = [] := by
      intro tl _ hall
      have h2 : ∀ c ∈ t2.data, c.isDigit = true := fun c hc =>
        hall c (by rw [List.flatMap_cons]; exact List.mem_append_left _ hc)
      refine ⟨⟨hne2, h2⟩, ?_⟩
      cases ts with
      | nil => rfl
      | cons t3 ts3 =>
        exfalso
        obtain ⟨hne3, _, hd3, _, _, _⟩ := ordinaryToken_chars L t3 (htok t3 (by simp))
        obtain ⟨x, xs, hx⟩ := List.exists_cons_of_ne_nil hne3
        have hx3 : x ∈ t3.data := by rw [hx]; simp
        have hxd : x.isDigit = true := hall x (by
          rw [List.flatMap_cons, List.flatMap_cons]
          exact List.mem_append_right _ (List.mem_append_left _ hx3))
        exact hsep2.1.1 ⟨Or.inl ⟨hne2, h2⟩, hd3 x hx3 hxd⟩
    rcases hdata with hdata | hdata | hdata
    · exfalso
      have hall : ∀ c ∈ (t1 :: t2 :: ts).flatMap String.data, c.isDigit = true := by
        rw [hdata]; exact hbd
      obtain ⟨x, xs, hx⟩ := List.exists_cons_of_ne_nil hne1
      obtain ⟨y, ys, hy⟩ := List.exists_cons_of_ne_nil hne2
      have hx1 : x ∈ t1.data := by rw [hx]; simp
      have hy2 : y ∈ t2.data := by rw [hy]; simp
      have hxd := hall x (by rw [List.flatMap_cons]; exact List.mem_append_left _ hx1)
      have hyd := hall y (by
        rw [List.flatMap_cons, List.flatMap_cons]
        exact List.mem_append_right _ (List.mem_append_left _ hy2))
      exact hsep1.1 ⟨hd1 x hx1 hxd, hd2 y hy2 hyd⟩
    · obtain ⟨tl, h1, hrest⟩ := head_of_flatMap t1 (t2 :: ts) body '+' hne1 hdata
      have hop := ho1 '+' (by rw [h1]; simp) (by decide)
      have hh : t1.data.head? = some '+' := by rw [h1]; rfl
      have ht1 : t1 = "+" := by
        rcases hop with h | h | h | h | h <;> subst h <;> first | rfl | (exfalso; revert hh; decide)
      subst ht1
      have htl : tl = [] := by simpa using h1.symm
      subst htl
      simp only [List.nil_append] at hrest
      obtain ⟨hnum2, hts⟩ := hsecond [] (by simp) (by rw [← hrest]; exact hbd)
      subst hts
      exact ⟨"+", t2, rfl, Or.inl rfl, hnum2⟩
    · obtain ⟨tl, h1, hrest⟩ := head_of_flatMap t1 (t2 :: ts) body '-' hne1 hdata
      have hop := ho1 '-' (by rw [h1]; simp) (by decide)
      have hh : t1.data.head? = some '-' := by rw [h1]; rfl
      have ht1 : t1 = "-" := by
        rcases hop with h | h | h | h | h <;> subst h <;> first | rfl | (exfalso; revert hh; decide)
      subst ht1
      have htl : tl = [] := by simpa using h1.symm
      subst htl
      simp only [List.nil_append] at hrest
      obtain ⟨hnum2, hts⟩ := hsecond [] (by simp) (by rw [← hrest]; exact hbd)
      subst hts
      exact ⟨"-", t2, rfl, Or.inr rfl, hnum2⟩

/-! ### Tokens of the spaced form -/

/-- A line with a space that neither starts nor ends with white space is in
spaced form: `addSpaces` only replaces its parentheses. -/
theorem addSpaces_spaced_form (L : Lib) (s : String)
    (h1 : ∀ c, s.data.head? = some c → isSpace c = false)
    (h2 : ∀ c, s.data.getLast? = some c → isSpace c = false) (hsp : ' ' ∈ s.data) :
    Infix.addSpaces L s = replaceChar (replaceChar s '(' "( ") ')' " )" := by
  unfold Infix.addSpaces
  rw [trimSpace_of_ends s h1 h2]
  have hform : Infix.isSpaceLessForm L s = false := by
    unfold Infix.isSpaceLessForm containsChar
    split
    · rfl
    · simp [hsp]
  simp [hform]

theorem replaceChar_parens (s : String) :
    (replaceChar (replaceChar s '(' "( ") ')' " )").data = s.data.flatMap parenSpaces := by
  simp only [replaceChar]
  rw [List.flatMap_assoc]
  congr 1
  funext c
  by_cases h1 : c = '('
  · subst h1; rfl
  · by_cases h2 : c = ')'
    · subst h2; rfl
    · simp [parenSpaces, h1, h2]

theorem fieldsLoop_skip (rest : List Char) : fieldsLoop (' ' :: rest) [] = fieldsLoop rest [] := by
  rw [fieldsLoop]
  have hsp : isSpace ' ' = true := by decide
  simp [hsp]

/-- A word followed by nothing or by a space is a field. -/
theorem fieldsLoop_token (w rest : List Char) (hw : ∀ c ∈ w, isSpace c = false) (hne : w ≠ [])
    (hrest : rest = [] ∨ ∃ tl, rest = ' ' :: tl) :
    fieldsLoop (w ++ rest) [] = String.mk w :: fieldsLoop rest [] := by
  rcases hrest with rfl | ⟨tl, rfl⟩
  · rw [List.append_nil, fieldsLoop_word_end w hw hne]
    simp [fieldsLoop]
  · rw [fieldsLoop_word_space w tl hw hne, fieldsLoop_skip]

/-- An ordinary token, with the spaces `addSpaces` puts at its parentheses,
followed by nothing or by a space, is a field. -/
theorem fieldsLoop_ordinary (L : Lib) (t : String) (ht : ordinaryToken t) (rest : List Char)
    (hrest : rest = [] ∨ ∃ tl, rest = ' ' :: tl) :
    fieldsLoop (t.data.flatMap parenSpaces ++ rest) [] = t :: fieldsLoop rest [] := by
  obtain ⟨hne, hns, hd, hl, ho, _⟩ := ordinaryToken_chars L t ht
  by_cases hopen : t = "("
  · subst hopen
    have : "(".data.flatMap parenSpaces ++ rest = ['('] ++ ' ' :: rest := rfl
    rw [this, fieldsLoop_word_space ['('] rest (by decide) (by simp)]
  · by_cases hclose : t = ")"
    · subst hclose
      have : ")".data.flatMap parenSpaces ++ rest = ' ' :: ([')'] ++ rest) := rfl
      rw [this, fieldsLoop_skip, fieldsLoop_token [')'] rest (by decide) (by simp) hrest]
    · have hplain : ∀ c ∈ t.data, parenSpaces c = [c] := by
        intro c hc
        have hnp : c ≠ '(' ∧ c ≠ ')' := by
          rcases ht with (⟨_, h⟩ | ⟨_, h⟩) | h | h
          · have := (isDigit_iff c).1 (h c hc)
            constructor <;> apply toNat_ne_of_ne
            · show c.toNat ≠ 40; omega
            · show c.toNat ≠ 41; omega
          · have := isAlpha_cases c (h c hc)
            constructor <;> apply toNat_ne_of_ne
            · show c.toNat ≠ 40; omega
            · show c.toNat ≠ 41; omega
          · rcases h with h | h | h | h | h <;> subst h <;> simp at hc <;> subst hc <;> decide
          · rcases h with h | h
            · exact absurd h hopen
            · exact absurd h hclose
        simp [parenSpaces, hnp.1, hnp.2]
      have hflat : t.data.flatMap parenSpaces = t.data := by
        have : ∀ l : List Char, (∀ c ∈ l, parenSpaces c = [c]) → l.flatMap parenSpaces = l := by
          intro l hl2
          induction l with
          | nil => rfl
          | cons c cs ih =>
            rw [List.flatMap_cons, hl2 c (by simp), ih (fun d hd2 => hl2 d (by simp [hd2]))]
            rfl
        exact this t.data hplain
      rw [hflat, fieldsLoop_token t.data rest hns hne hrest]

/-- The fields of ordinary tokens joined by single spaces, with the spaces
`addSpaces` puts at the parentheses, are the tokens. -/
theorem fieldsLoop_joinChars (L : Lib) (tokens : List String)
    (htok : ∀ t ∈ tokens, ordinaryToken t) :
    fieldsLoop ((joinChars tokens).flatMap parenSpaces) [] = tokens := by
  induction tokens with
  | nil => simp [joinChars, fieldsLoop]
  | cons t ts ih =>
    cases ts with
    | nil =>
      have := fieldsLoop_ordinary L t (htok t (by simp)) [] (Or.inl rfl)
      simpa [joinChars, fieldsLoop] using this
    | cons t2 ts2 =>
      have hspace : parenSpaces ' ' = [' '] := by decide
      rw [joinChars, List.flatMap_append, List.flatMap_cons, hspace, List.singleton_append,
        fieldsLoop_ordinary L t (htok t (by simp)) _ (Or.inr ⟨_, rfl⟩), fieldsLoop_skip,
        ih (fun u hu => htok u (by simp [hu]))]

theorem joinChars_ne_nil (t : String) (ts : List String) (hne : t.data ≠ []) :
    joinChars (t :: ts) ≠ [] := by
  cases ts with
  | nil => simpa [joinChars] using hne
  | cons t2 ts2 => simp [joinChars]

/-- The tokens joined by spaces start and end with a character of a token. -/
theorem joinChars_ends (tokens : List String)
    (hne : ∀ t ∈ tokens, t.data ≠ [] ∧ ∀ c ∈ t.data, isSpace c = false) :
    (∀ c, (joinChars tokens).head? = some c → isSpace c = false) ∧
      (∀ c, (joinChars tokens).getLast? = some c → isSpace c = false) := by
  induction tokens with
  | nil => simp [joinChars]
  | cons t ts ih =>
    obtain ⟨htne, htns⟩ := hne t (by simp)
    have hts : ∀ u ∈ ts, u.data ≠ [] ∧ ∀ c ∈ u.data, isSpace c = false :=
      fun u hu => hne u (by simp [hu])
    cases ts with
    | nil =>
      simp only [joinChars]
      exact ⟨fun c hc => htns c (List.mem_of_mem_head? hc),
        fun c hc => htns c (List.mem_of_getLast?_eq_some hc)⟩
    | cons t2 ts2 =>
      rw [joinChars]
      constructor
      · intro c hc
        obtain ⟨x, xs, hx⟩ := List.exists_cons_of_ne_nil htne
        rw [hx] at hc
        simp at hc
        subst hc
        exact htns x (by rw [hx]; simp)
      · intro c hc
        have hj := joinChars_ne_nil t2 ts2 (hne t2 (by simp)).1
        rw [List.getLast?_append_of_ne_nil _ (by simp)] at hc
        obtain ⟨y, ys, hy⟩ := List.exists_cons_of_ne_nil hj
        rw [hy, List.getLast?_cons_cons, ← hy] at hc
        exact (ih hts).2 c hc

theorem joinChars_space (tokens : List String) (hlen : 2 ≤ tokens.length) :
    ' ' ∈ joinChars tokens := by
  match tokens, hlen with
  | [], h => simp at h
  | [_], h => simp at h
  | t :: t2 :: ts, _ => simp [joinChars]

/-- C20, at the tokens `+` and `5`: concatenated they are the bare number `+5`,
which `addSpaces` leaves alone and which stays one token, while joined by a
space they are two tokens. -/
theorem sign_and_number_tokenise_differently :
    (∀ t ∈ ["+", "5"], ordinaryToken t) ∧ separated ["+", "5"] ∧
    concatTokens ["+", "5"] = "+5" ∧ joinTokens ["+", "5"] = "+ 5" ∧
    Infix.isSpaceLessForm asciiLib "+5" = false ∧
    fields (Infix.addSpaces asciiLib (concatTokens ["+", "5"])) = ["+5"] ∧
    fields (Infix.addSpaces asciiLib (concatTokens ["+", "5"])) ≠ ["+", "5"] ∧
    fields (Infix.addSpaces asciiLib (joinTokens ["+", "5"])) = ["+", "5"] :=
  ⟨by decide, by decide, by decide, by decide, by decide, by decide, by decide, by decide⟩

/-- C20, amended: for every sequence of two or more tokens built from unsigned
decimal numbers, identifiers of ASCII letters, the single-character operators
`+ - * / ^` and parentheses, with no two operands and no two operators adjacent,
other than a sign followed by a number: the tokens concatenated without spaces
and the tokens joined by single spaces are both split, after `addSpaces`, into
exactly the original tokens; the concatenation of such a sequence is not a bare
number. -/
theorem tokenise_spaced_and_spaceless (L : Lib) (tokens : List String)
    (htok : ∀ t ∈ tokens, ordinaryToken t) (hsep : separated tokens)
    (hlen : 2 ≤ tokens.length) (hsign : ¬ signedNumber tokens) :
    isNumber L (concatTokens tokens) = false ∧
    fields (Infix.addSpaces L (concatTokens tokens)) = tokens ∧
    fields (Infix.addSpaces L (joinTokens tokens)) = tokens := by
  have hchars : ∀ t ∈ tokens, t.data ≠ [] ∧ ∀ c ∈ t.data, isSpace c = false := by
    intro t ht
    obtain ⟨h1, h2, _⟩ := ordinaryToken_chars L t (htok t ht)
    exact ⟨h1, h2⟩
  have hnum : isNumber L (concatTokens tokens) = false := by
    cases h : isNumber L (concatTokens tokens) with
    | false => rfl
    | true => exact absurd (concat_isNumber L tokens htok hsep hlen h) hsign
  refine ⟨hnum, ?_, ?_⟩
  · have hns : ∀ c ∈ (concatTokens tokens).data, isSpace c = false := by
      intro c hc
      have hc2 : c ∈ tokens.flatMap String.data := hc
      obtain ⟨t, ht, hct⟩ := List.mem_flatMap.1 hc2
      exact (hchars t ht).2 c hct
    rw [(fields_addSpaces_spaceless L _ hns hnum).2]
    have hdata : (concatTokens tokens).data = tokens.flatMap String.data := rfl
    rw [hdata, runs_concat L tokens htok hsep, List.map_map]
    have : (String.mk ∘ String.data) = id := by
      funext s
      rfl
    rw [this, List.map_id]
  · obtain ⟨h1, h2⟩ := joinChars_ends tokens hchars
    rw [addSpaces_spaced_form L (joinTokens tokens) h1 h2 (joinChars_space tokens hlen)]
    unfold fields
    rw [replaceChar_parens]
    exact fieldsLoop_joinChars L tokens htok

theorem tokenise_spaced_and_spaceless_witness :
    fields (Infix.addSpaces asciiLib (concatTokens ["2", "*", "(", "ab", "+", "41", ")"])) =
        ["2", "*", "(", "ab", "+", "41", ")"] ∧
      fields (Infix.addSpaces asciiLib (joinTokens ["2", "*", "(", "ab", "+", "41", ")"])) =
        ["2", "*", "(", "ab", "+", "41", ")"] :=
  (tokenise_spaced_and_spaceless asciiLib ["2", "*", "(", "ab", "+", "41", ")"] (by decide)
    (by decide) (by decide) (by rintro ⟨s, n, h, _⟩; cases h)).2
end SmartCalc
